import Mathlib

/-!
# Verification of `divine.py` (latte_art_stock_picker)

Shallow embedding of the core of `src/divine.py`:

* `getIthComb` embeds `_get_ith_comb(n, k, idx)`, the combination unranker,
  including its Python error behaviour (`math.comb` raises `ValueError` on
  negative arguments; an exhausted `next(...)` raises `StopIteration`).
* `kcombs` is the canonical lexicographic enumeration of k-combinations of a
  list (the order produced by `itertools.combinations`), used as the
  specification object for unranking.
* `interp49BitFloat` embeds the arithmetic of `_interp_49_bit`: the
  expression `int(x, 2) / 2 ** 49 * y_sup` runs on Python floats, modelled
  as IEEE-754 binary64 round-to-nearest-even arithmetic over exact
  mantissa/exponent pairs (`rnPair`, `rnMul`, `floorPair`); `interp49BitNum`
  is the spec's reference formula `floor(digest / 2^(B²) * M)` in exact
  arithmetic, used for comparison.
* `getBinStr` / `pyIntBase2` embed `_get_bin_str_from_image`'s bit-string
  construction from the two thresholded vectors and Python's `int(s, 2)`.
* `SP_500`, `pickSp500Symbols` embed the universe and `_pick_sp500_symbols`.
-/

/-- Python exceptions that the embedded code can raise. -/
inductive PyErr where
  | valueError
  | stopIteration
  | indexError
  | overflowError
deriving DecidableEq

deriving instance DecidableEq for Except

/-- `SR_BITS = 7` from the source. -/
def SR_BITS : Nat := 7

/-- `N_PICKS = 4` from the source. -/
def N_PICKS : Nat := 4

/-- The scan `next(x for x in reversed(range(np)) if comb(x, kp) <= above)`
inside `_get_ith_comb`: the first `x` counting down from `np - 1` with
`C(x, kp) ≤ above`, or `none` when the generator is exhausted
(Python raises `StopIteration`). -/
def findDesc : Nat → Nat → Int → Option Nat
  | 0, _, _ => none
  | x + 1, kp, above =>
    if (Nat.choose x kp : Int) ≤ above then some x else findDesc x kp above

/-- The `for _ in range(0, k)` loop of `_get_ith_comb`, with the original `n`
fixed, the loop counter as fuel, and the mutable locals `n_p`, `k_p`, `above`,
`result` threaded explicitly. -/
def getIthCombLoop (n : Int) : Nat → Nat → Nat → Int → List Int →
    Except PyErr (List Int)
  | 0, _, _, _, result => .ok result
  | steps + 1, np, kp, above, result =>
    match findDesc np kp above with
    | none => .error .stopIteration
    | some x =>
        getIthCombLoop n steps x (kp - 1) (above - (Nat.choose x kp : Int))
          (result ++ [n - 1 - (x : Int)])

/-- Embedding of `_get_ith_comb(n, k, idx)`.  `math.comb(n, k)` raises
`ValueError` when `n < 0` or `k < 0` and equals `Nat.choose n k` otherwise
(in particular it is `0` for `k > n`). -/
def getIthComb (n k idx : Int) : Except PyErr (List Int) :=
  if n < 0 ∨ k < 0 then .error .valueError
  else
    getIthCombLoop n k.toNat n.toNat k.toNat
      ((Nat.choose n.toNat k.toNat : Int) - 1 - idx) []

/-- Pure view of the loop: the sequence of selected `x` values ("digits" of the
combinatorial number system), without the `n - 1 - x` re-indexing and the
accumulator. -/
def combDigits : Nat → Nat → Nat → Int → Option (List Nat)
  | 0, _, _, _ => some []
  | steps + 1, np, kp, above =>
    match findDesc np kp above with
    | none => none
    | some x =>
        (combDigits steps x (kp - 1) (above - (Nat.choose x kp : Int))).map
          (x :: ·)

/-- Canonical lexicographic enumeration of the `k`-element combinations of a
list, in the order produced by `itertools.combinations`: each combination is a
subsequence, and combinations are listed in lexicographic order of the
ascending tuples whenever the input list is strictly increasing. -/
def kcombs : Nat → List Nat → List (List Nat)
  | 0, _ => [[]]
  | _ + 1, [] => []
  | k + 1, a :: as => (kcombs k as).map (a :: ·) ++ kcombs (k + 1) as

-- Sanity checks against the spec's worked examples (section 8):
example : getIthComb 5 2 4 = .ok [1, 2] := by decide
example : getIthComb 5 2 9 = .ok [3, 4] := by decide
example : kcombs 2 (List.range 4) = [[0,1],[0,2],[0,3],[1,2],[1,3],[2,3]] := by
  decide
example : getIthComb 5 2 10 = .error .stopIteration := by decide
example : getIthComb 5 2 (-1) = .ok [0, 1] := by decide
example : getIthComb (-1) 2 0 = .error .valueError := by decide
example : getIthComb 5 0 (-7) = .ok [] := by decide

/-- The loop is the digit computation followed by the `n - 1 - x` re-indexing,
appended to the accumulator. -/
theorem getIthCombLoop_eq_combDigits (n : Int) :
    ∀ (steps np kp : Nat) (above : Int) (acc : List Int),
      getIthCombLoop n steps np kp above acc =
        match combDigits steps np kp above with
        | none => .error .stopIteration
        | some xs => .ok (acc ++ xs.map (fun (x : Nat) => n - 1 - (x : Int))) := by
  intro steps
  induction steps with
  | zero => intro np kp above acc; simp [getIthCombLoop, combDigits]
  | succ m ih =>
      intro np kp above acc
      rw [getIthCombLoop, combDigits]
      cases h : findDesc np kp above with
      | none => rfl
      | some x =>
          simp only [ih]
          cases hd : combDigits m x (kp - 1) (above - (Nat.choose x kp : Int)) with
          | none => rfl
          | some xs => simp

/-! ## Properties of the lexicographic enumeration `kcombs` -/

theorem length_kcombs : ∀ (k : Nat) (l : List Nat),
    (kcombs k l).length = Nat.choose l.length k := by
  intro k l
  induction l generalizing k with
  | nil => cases k <;> simp [kcombs]
  | cons a as ih =>
      cases k with
      | zero => simp [kcombs]
      | succ kq =>
          simp [kcombs, ih, List.length_cons, Nat.choose_succ_succ]

theorem kcombs_map (f : Nat → Nat) : ∀ (k : Nat) (l : List Nat),
    kcombs k (l.map f) = (kcombs k l).map (List.map f) := by
  intro k l
  induction l generalizing k with
  | nil => cases k <;> simp [kcombs]
  | cons a as ih =>
      cases k with
      | zero => simp [kcombs]
      | succ kq =>
          simp only [List.map_cons, kcombs, ih, List.map_append, List.map_map]
          rfl

theorem kcombs_mem : ∀ (k : Nat) (l c : List Nat), c ∈ kcombs k l →
    c.length = k ∧ c.Sublist l := by
  intro k l
  induction l generalizing k with
  | nil =>
      cases k with
      | zero => intro c hc; simp [kcombs] at hc; simp [hc]
      | succ kq => intro c hc; simp [kcombs] at hc
  | cons a as ih =>
      cases k with
      | zero =>
          intro c hc; simp [kcombs] at hc
          simp [hc, List.nil_sublist]
      | succ kq =>
          intro c hc
          simp only [kcombs, List.mem_append, List.mem_map] at hc
          rcases hc with ⟨c', hc', rfl⟩ | hc
          · obtain ⟨h1, h2⟩ := ih kq c' hc'
            exact ⟨by simp [h1], List.Sublist.cons₂ a h2⟩
          · obtain ⟨h1, h2⟩ := ih (kq + 1) c hc
            exact ⟨h1, h2.cons a⟩

theorem kcombs_complete : ∀ {c l : List Nat}, c.Sublist l → c ∈ kcombs c.length l := by
  intro c l h
  induction h with
  | slnil => simp [kcombs]
  | cons a h ih =>
      rename_i c' l'
      cases hc : c'.length with
      | zero =>
          have : c' = [] := List.length_eq_zero.mp hc
          simp [this, kcombs]
      | succ kq =>
          rw [hc] at ih
          simp only [kcombs, List.mem_append]
          exact Or.inr ih
  | cons₂ a h ih =>
      rename_i c' l'
      simp only [List.length_cons, kcombs, List.mem_append, List.mem_map]
      exact Or.inl ⟨c', ih, rfl⟩

theorem lex_lt_irrefl : ∀ (c : List Nat), ¬ List.Lex (· < ·) c c := by
  intro c
  induction c with
  | nil => intro h; cases h
  | cons a as ih =>
      intro h
      cases h with
      | cons h => exact ih h
      | rel h => exact Nat.lt_irrefl a h

theorem kcombs_pairwise_lex : ∀ (k : Nat) {l : List Nat}, l.Pairwise (· < ·) →
    (kcombs k l).Pairwise (List.Lex (· < ·)) := by
  intro k l hl
  induction l generalizing k with
  | nil => cases k <;> simp [kcombs]
  | cons a as ih =>
      have has : as.Pairwise (· < ·) := (List.pairwise_cons.mp hl).2
      have hlt : ∀ b ∈ as, a < b := (List.pairwise_cons.mp hl).1
      cases k with
      | zero => simp [kcombs]
      | succ kq =>
          simp only [kcombs]
          rw [List.pairwise_append]
          refine ⟨?_, ih (kq + 1) has, ?_⟩
          · exact (ih kq has).map _ (fun c1 c2 h => List.Lex.cons h)
          · intro x hx y hy
            obtain ⟨c1, _, rfl⟩ := List.mem_map.mp hx
            obtain ⟨hy1, hy2⟩ := kcombs_mem (kq + 1) as y hy
            cases y with
            | nil => simp at hy1
            | cons b y' =>
                have hb : b ∈ as := hy2.subset (by simp)
                exact List.Lex.rel (hlt b hb)

theorem kcombs_nodup (k : Nat) {l : List Nat} (hl : l.Pairwise (· < ·)) :
    (kcombs k l).Nodup := by
  refine (kcombs_pairwise_lex k hl).imp ?_
  intro c1 c2 hlex heq
  exact lex_lt_irrefl c1 (heq ▸ hlex)

theorem sorted_sublist_range' : ∀ (len s : Nat) (d : List Nat),
    d.Pairwise (· < ·) → (∀ v ∈ d, s ≤ v ∧ v < s + len) →
    d.Sublist (List.range' s len) := by
  intro len
  induction len with
  | zero =>
      intro s d _ hb
      cases d with
      | nil => simp
      | cons v d' => exact absurd (hb v (by simp)) (by omega)
  | succ m ih =>
      intro s d hp hb
      rw [List.range'_succ]
      cases d with
      | nil => exact List.nil_sublist _
      | cons v d' =>
          have hv := hb v (by simp)
          have hp' : d'.Pairwise (· < ·) := (List.pairwise_cons.mp hp).2
          have hvlt : ∀ x ∈ d', v < x := (List.pairwise_cons.mp hp).1
          by_cases hvs : v = s
          · subst hvs
            refine List.Sublist.cons₂ v ?_
            refine ih (v + 1) d' hp' ?_
            intro x hx
            have := hb x (by simp [hx])
            have := hvlt x hx
            omega
          · refine List.Sublist.cons s ?_
            refine ih (s + 1) (v :: d') hp ?_
            intro x hx
            rcases List.mem_cons.mp hx with rfl | hx'
            · omega
            · have := hb x (by simp [hx'])
              have := hvlt x hx'
              omega

theorem sorted_sublist_range (n : Nat) (d : List Nat)
    (hp : d.Pairwise (· < ·)) (hb : ∀ v ∈ d, v < n) : d.Sublist (List.range n) := by
  rw [List.range_eq_range']
  exact sorted_sublist_range' n 0 d hp (fun v hv => ⟨Nat.zero_le v, by simpa using hb v hv⟩)

/-! ## Properties of the descending scan `findDesc` -/

theorem findDesc_neg {np kp : Nat} {above : Int} (h : above < 0) :
    findDesc np kp above = none := by
  induction np with
  | zero => rfl
  | succ m ih =>
      rw [findDesc, if_neg, ih]
      intro hc
      have h0 : (0 : Int) ≤ (Nat.choose m kp : Int) := Int.natCast_nonneg _
      omega

theorem findDesc_succ_of_le {np kp : Nat} {above : Int}
    (h : (Nat.choose np kp : Int) ≤ above) : findDesc (np + 1) kp above = some np := by
  rw [findDesc, if_pos h]

theorem findDesc_succ_of_gt {np kp : Nat} {above : Int}
    (h : above < (Nat.choose np kp : Int)) :
    findDesc (np + 1) kp above = findDesc np kp above := by
  rw [findDesc, if_neg (not_le.mpr h)]

/-! ## Correctness of the digit computation -/

/-- Main combinatorial lemma: for `kp ≤ np` and a complementary rank
`a < C(np, kp)`, the greedy digit computation succeeds, its digits are below
`np`, and re-indexing the digits by `np - 1 - ·` yields exactly the entry of
the lexicographic enumeration at position `C(np, kp) - 1 - a`. -/
theorem combDigits_spec : ∀ (np kp a : Nat), kp ≤ np → a < Nat.choose np kp →
    ∃ xs, combDigits kp np kp (a : Int) = some xs ∧ (∀ x ∈ xs, x < np) ∧
      (kcombs kp (List.range np))[Nat.choose np kp - 1 - a]? =
        some (xs.map (fun x => np - 1 - x)) := by
  intro np
  induction np with
  | zero =>
      intro kp a hk ha
      have hkp : kp = 0 := Nat.le_zero.mp hk
      subst hkp
      rw [Nat.choose_zero_right] at ha
      have ha0 : a = 0 := by omega
      subst ha0
      exact ⟨[], rfl, by simp, by decide⟩
  | succ np ih =>
      intro kp a hk ha
      cases kp with
      | zero =>
          rw [Nat.choose_zero_right] at ha
          have ha0 : a = 0 := by omega
          subst ha0
          refine ⟨[], rfl, by simp, ?_⟩
          simp [kcombs, Nat.choose_zero_right]
      | succ kq =>
          have hkq : kq ≤ np := Nat.succ_le_succ_iff.mp hk
          rw [Nat.choose_succ_succ'] at ha ⊢
          by_cases hcase : Nat.choose np (kq + 1) ≤ a
          · -- the scan selects `np` immediately
            have hfd : findDesc (np + 1) (kq + 1) (a : Int) = some np :=
              findDesc_succ_of_le (by exact_mod_cast hcase)
            have hsub : ((a : Int) - (Nat.choose np (kq + 1) : Int)) =
                ((a - Nat.choose np (kq + 1) : Nat) : Int) := by omega
            have ha' : a - Nat.choose np (kq + 1) < Nat.choose np kq := by omega
            obtain ⟨xs', hd, hb, he⟩ :=
              ih kq (a - Nat.choose np (kq + 1)) hkq ha'
            refine ⟨np :: xs', ?_, ?_, ?_⟩
            · rw [combDigits, hfd]
              simp only [Nat.add_sub_cancel, hsub, hd, Option.map_some']
            · intro x hx
              rcases List.mem_cons.mp hx with rfl | hx'
              · omega
              · exact Nat.lt_succ_of_lt (hb x hx')
            · rw [List.range_succ_eq_map]
              simp only [kcombs, kcombs_map Nat.succ]
              rw [List.getElem?_append_left (by simp [length_kcombs]; omega)]
              rw [List.getElem?_map, List.getElem?_map]
              have hidx : Nat.choose np kq + Nat.choose np (kq + 1) - 1 - a =
                  Nat.choose np kq - 1 - (a - Nat.choose np (kq + 1)) := by omega
              rw [hidx, he]
              simp only [Option.map_some', List.map_cons, List.map_map]
              congr 2
              · omega
              · refine List.map_congr_left ?_
                intro x hx
                have := hb x hx
                simp only [Function.comp_apply]
                omega
          · -- the scan skips `np` and continues below
            have ha2 : a < Nat.choose np (kq + 1) := lt_of_not_ge hcase
            have hkle : kq + 1 ≤ np := by
              rcases Nat.lt_or_ge np (kq + 1) with hlt | hge
              · rw [Nat.choose_eq_zero_of_lt hlt] at ha2; omega
              · exact hge
            have hfd : findDesc (np + 1) (kq + 1) (a : Int) =
                findDesc np (kq + 1) (a : Int) :=
              findDesc_succ_of_gt (by exact_mod_cast ha2)
            have hstep : combDigits (kq + 1) (np + 1) (kq + 1) (a : Int) =
                combDigits (kq + 1) np (kq + 1) (a : Int) := by
              rw [combDigits, hfd, combDigits]
            obtain ⟨xs, hd, hb, he⟩ := ih (kq + 1) a hkle ha2
            refine ⟨xs, by rw [hstep]; exact hd,
              fun x hx => Nat.lt_succ_of_lt (hb x hx), ?_⟩
            rw [List.range_succ_eq_map]
            simp only [kcombs, kcombs_map Nat.succ]
            rw [List.getElem?_append_right (by simp [length_kcombs]; omega)]
            have hidx : ∀ L : Nat, L = Nat.choose np kq →
                Nat.choose np kq + Nat.choose np (kq + 1) - 1 - a - L =
                Nat.choose np (kq + 1) - 1 - a := by omega
            rw [show (((kcombs kq (List.range np)).map (List.map Nat.succ)).map
                (List.cons 0)).length = Nat.choose np kq by simp [length_kcombs]]
            rw [hidx (Nat.choose np kq) rfl, List.getElem?_map, he]
            simp only [Option.map_some', List.map_map]
            congr 1
            refine List.map_congr_left ?_
            intro x hx
            have := hb x hx
            simp only [Function.comp_apply]
            omega

/-- When the complementary rank is at least `C(np, kp) - 1`, the scan always
selects the top candidate and the digits are `[np-1, np-2, ..., np-kp]`.
This covers `idx = 0` (`above = C - 1`) and every negative `idx`
(`above ≥ C`). -/
theorem combDigits_top : ∀ (kp np : Nat) (above : Int), kp ≤ np →
    (Nat.choose np kp : Int) - 1 ≤ above →
    combDigits kp np kp above = some ((List.range kp).map (fun i => np - 1 - i)) := by
  intro kp
  induction kp with
  | zero => intro np above _ _; simp [combDigits]
  | succ kq ih =>
      intro np above hk hab
      obtain ⟨m, rfl⟩ : ∃ m, np = m + 1 := ⟨np - 1, by omega⟩
      have hkm : kq ≤ m := by omega
      have hCpos : 0 < Nat.choose m kq := Nat.choose_pos hkm
      have hPascal : Nat.choose (m + 1) (kq + 1) =
          Nat.choose m kq + Nat.choose m (kq + 1) := Nat.choose_succ_succ' m kq
      have h1 : ((Nat.choose (m + 1) (kq + 1) : Nat) : Int) =
          (Nat.choose m kq : Int) + (Nat.choose m (kq + 1) : Int) := by
        exact_mod_cast hPascal
      have hfd : findDesc (m + 1) (kq + 1) above = some m :=
        findDesc_succ_of_le (by omega)
      rw [combDigits, hfd]
      have hab' : (Nat.choose m kq : Int) - 1 ≤ above - (Nat.choose m (kq + 1) : Int) := by
        omega
      simp only [Nat.add_sub_cancel, ih m _ hkm hab', Option.map_some']
      have hlist : (List.range (kq + 1)).map (fun i => m - i) =
          m :: (List.range kq).map (fun i => m - 1 - i) := by
        rw [List.range_succ_eq_map]
        simp only [List.map_cons, List.map_map, Nat.sub_zero]
        refine congrArg (List.cons m) ?_
        refine List.map_congr_left ?_
        intro x _
        simp only [Function.comp_apply]
        omega
      rw [hlist]

/-- With complementary rank `0`, the scan descends to the first `x` with
`C(x, kp+1) = 0`, namely `x = kp`. -/
theorem findDesc_zero : ∀ (np kq : Nat), kq + 1 ≤ np →
    findDesc np (kq + 1) 0 = some kq := by
  intro np
  induction np with
  | zero => intro kq h; omega
  | succ m ih =>
      intro kq h
      by_cases hm : m = kq
      · subst hm
        rw [findDesc, if_pos]
        rw [Nat.choose_eq_zero_of_lt (by omega)]
        simp
  -- after this, the top candidate has a positive binomial and is skipped
      · have hlt : kq + 1 ≤ m := by omega
        rw [findDesc, if_neg, ih kq hlt]
        have := Nat.choose_pos hlt
        intro hc
        have : ((Nat.choose m (kq + 1) : Nat) : Int) ≤ 0 := hc
        omega

/-- With complementary rank `0` (the last combination), the digits are
`[kp-1, kp-2, ..., 0]`. -/
theorem combDigits_zero : ∀ (kp np : Nat), kp ≤ np →
    combDigits kp np kp 0 = some ((List.range kp).map (fun i => kp - 1 - i)) := by
  intro kp
  induction kp with
  | zero => intro np _; simp [combDigits]
  | succ kq ih =>
      intro np hk
      rw [combDigits, findDesc_zero np kq hk]
      simp only [Nat.add_sub_cancel,
        Nat.choose_eq_zero_of_lt (Nat.lt_succ_self kq), Nat.cast_zero, sub_zero,
        ih kq (le_refl kq), Option.map_some']
      have hlist : (List.range (kq + 1)).map (fun i => kq - i) =
          kq :: (List.range kq).map (fun i => kq - 1 - i) := by
        rw [List.range_succ_eq_map]
        simp only [List.map_cons, List.map_map, Nat.sub_zero]
        refine congrArg (List.cons kq) ?_
        refine List.map_congr_left ?_
        intro x _
        simp only [Function.comp_apply]
        omega
      rw [hlist]

/-! ## Assembly: `getIthComb` in terms of the digits -/

/-- For non-negative `n` and `k`, `_get_ith_comb` is the digit computation
followed by the re-indexing `x ↦ n - 1 - x`. -/
theorem getIthComb_eq (n k : Nat) (idx : Int) :
    getIthComb n k idx =
      match combDigits k n k ((Nat.choose n k : Int) - 1 - idx) with
      | none => .error .stopIteration
      | some xs => .ok (xs.map (fun (x : Nat) => (n : Int) - 1 - (x : Int))) := by
  rw [getIthComb, if_neg (by omega)]
  rw [getIthCombLoop_eq_combDigits]
  simp only [Int.toNat_natCast]
  cases combDigits k n k ((Nat.choose n k : Int) - 1 - idx) with
  | none => rfl
  | some xs => simp

/-- For valid inputs, `_get_ith_comb` returns exactly the `idx`-th entry of the
lexicographic enumeration. -/
theorem getIthComb_ok (n k idx : Nat) (hk : k ≤ n) (hidx : idx < Nat.choose n k) :
    ∃ c : List Nat, (kcombs k (List.range n))[idx]? = some c ∧
      getIthComb n k idx = .ok (c.map (fun (v : Nat) => (v : Int))) := by
  have ha : Nat.choose n k - 1 - idx < Nat.choose n k := by omega
  obtain ⟨xs, hd, hb, he⟩ := combDigits_spec n k (Nat.choose n k - 1 - idx) hk ha
  have hidx' : Nat.choose n k - 1 - (Nat.choose n k - 1 - idx) = idx := by omega
  rw [hidx'] at he
  refine ⟨xs.map (fun x => n - 1 - x), he, ?_⟩
  rw [getIthComb_eq]
  have habove : ((Nat.choose n k : Int) - 1 - (idx : Int)) =
      ((Nat.choose n k - 1 - idx : Nat) : Int) := by omega
  rw [habove, hd]
  simp only [List.map_map]
  congr 1
  refine List.map_congr_left ?_
  intro x hx
  have := hb x hx
  simp only [Function.comp_apply]
  omega

/-- Every entry of `kcombs k (List.range n)` is a strictly increasing list of
`k` indices below `n`. -/
theorem kcombs_range_facts (n k : Nat) {c : List Nat}
    (hc : c ∈ kcombs k (List.range n)) :
    c.Pairwise (· < ·) ∧ c.length = k ∧ ∀ v ∈ c, v < n := by
  obtain ⟨hlen, hsub⟩ := kcombs_mem k (List.range n) c hc
  refine ⟨List.Pairwise.sublist hsub (List.pairwise_lt_range n), hlen, ?_⟩
  intro v hv
  exact List.mem_range.mp (hsub.subset hv)

/-- Conversely, every strictly increasing list of `k` indices below `n` occurs
in `kcombs k (List.range n)`. -/
theorem kcombs_range_complete (n k : Nat) (d : List Nat)
    (hp : d.Pairwise (· < ·)) (hlen : d.length = k) (hb : ∀ v ∈ d, v < n) :
    d ∈ kcombs k (List.range n) := by
  have := kcombs_complete (sorted_sublist_range n d hp hb)
  rwa [hlen] at this

/-- `_get_ith_comb(n, k, idx)` with any `idx ≤ 0` (in particular `idx = 0` and
every negative `idx`): the scan always picks the top candidate and the result
is `[0, 1, ..., k-1]`, with no error. -/
theorem getIthComb_nonpos (n k : Nat) (idx : Int) (hk : k ≤ n) (hidx : idx ≤ 0) :
    getIthComb n k idx = .ok ((List.range k).map (fun (v : Nat) => (v : Int))) := by
  rw [getIthComb_eq]
  rw [combDigits_top k n _ hk (by omega)]
  simp only [List.map_map]
  congr 1
  refine List.map_congr_left ?_
  intro i hi
  have hik : i < k := List.mem_range.mp hi
  simp only [Function.comp_apply]
  omega

/-- `combDigits` with at least one step and a negative budget fails
(the generator in the scan is exhausted immediately). -/
theorem combDigits_neg (steps np kp : Nat) {above : Int} (h : above < 0) :
    combDigits (steps + 1) np kp above = none := by
  rw [combDigits, findDesc_neg h]

/-- `_get_ith_comb(n, k, idx)` with `k ≥ 1` and `idx ≥ C(n, k)` raises
`StopIteration` (this includes `idx = C(n,k)` and, since `C(n,k) = 0` for
`k > n ≥ 0`, every call with `k > n` and non-negative `idx`). -/
theorem getIthComb_ge (n k idx : Nat) (hk1 : 1 ≤ k) (hidx : Nat.choose n k ≤ idx) :
    getIthComb n k idx = .error .stopIteration := by
  rw [getIthComb_eq]
  obtain ⟨kq, rfl⟩ : ∃ kq, k = kq + 1 := ⟨k - 1, by omega⟩
  rw [combDigits_neg kq n (kq + 1) (by omega)]

/-- `_get_ith_comb(n, 0, idx)` returns `[]` for every integer `idx`: the loop
body never runs, so `idx` is never inspected. -/
theorem getIthComb_k_zero (n : Nat) (idx : Int) : getIthComb n 0 idx = .ok [] := by
  have h := getIthComb_eq n 0 idx
  rw [Nat.cast_zero] at h
  rw [h]
  rfl

theorem range'_eq_map_add : ∀ (k s : Nat),
    List.range' s k = (List.range k).map (fun i => s + i) := by
  intro k
  induction k with
  | zero => intro s; simp
  | succ m ih =>
      intro s
      rw [List.range'_succ, List.range_succ_eq_map, ih (s + 1)]
      simp only [List.map_cons, List.map_map, Nat.add_zero]
      refine congrArg (List.cons s) ?_
      refine List.map_congr_left ?_
      intro x _
      simp only [Function.comp_apply]
      omega

/-- `_get_ith_comb(n, k, C(n,k) - 1)` returns the last combination
`[n-k, ..., n-1]`. -/
theorem getIthComb_last (n k : Nat) (hk : k ≤ n) :
    getIthComb n k ((Nat.choose n k : Int) - 1) =
      .ok ((List.range' (n - k) k).map (fun (v : Nat) => (v : Int))) := by
  rw [getIthComb_eq]
  rw [show ((Nat.choose n k : Int) - 1 - ((Nat.choose n k : Int) - 1)) = 0 by ring]
  rw [combDigits_zero k n hk]
  rw [range'_eq_map_add]
  simp only [List.map_map]
  congr 1
  refine List.map_congr_left ?_
  intro i hi
  have hik : i < k := List.mem_range.mp hi
  simp only [Function.comp_apply]
  omega

/-! ## The universe, the interpolation, and the digest bit-string -/

/-- The S&P 500 symbol list from the source (503 symbols, in source order). -/
def SP_500 : List String := [
  "MMM", "AOS", "ABT", "ABBV", "ACN", "ATVI", "ADM", "ADBE", "ADP", "AAP",
  "AES", "AFL", "A", "APD", "AKAM", "ALK", "ALB", "ARE", "ALGN", "ALLE",
  "LNT", "ALL", "GOOGL", "GOOG", "MO", "AMZN", "AMCR", "AMD", "AEE",
  "AAL", "AEP", "AXP", "AIG", "AMT", "AWK", "AMP", "ABC", "AME", "AMGN",
  "APH", "ADI", "ANSS", "AON", "APA", "AAPL", "AMAT", "APTV", "ACGL",
  "ANET", "AJG", "AIZ", "T", "ATO", "ADSK", "AZO", "AVB", "AVY", "AXON",
  "BKR", "BALL", "BAC", "BBWI", "BAX", "BDX", "WRB", "BRK.B", "BBY",
  "BIO", "TECH", "BIIB", "BLK", "BK", "BA", "BKNG", "BWA", "BXP", "BSX",
  "BMY", "AVGO", "BR", "BRO", "BF.B", "BG", "CHRW", "CDNS", "CZR", "CPT",
  "CPB", "COF", "CAH", "KMX", "CCL", "CARR", "CTLT", "CAT", "CBOE",
  "CBRE", "CDW", "CE", "CNC", "CNP", "CDAY", "CF", "CRL", "SCHW", "CHTR",
  "CVX", "CMG", "CB", "CHD", "CI", "CINF", "CTAS", "CSCO", "C", "CFG",
  "CLX", "CME", "CMS", "KO", "CTSH", "CL", "CMCSA", "CMA", "CAG", "COP",
  "ED", "STZ", "CEG", "COO", "CPRT", "GLW", "CTVA", "CSGP", "COST",
  "CTRA", "CCI", "CSX", "CMI", "CVS", "DHI", "DHR", "DRI", "DVA", "DE",
  "DAL", "XRAY", "DVN", "DXCM", "FANG", "DLR", "DFS", "DIS", "DG", "DLTR",
  "D", "DPZ", "DOV", "DOW", "DTE", "DUK", "DD", "DXC", "EMN", "ETN",
  "EBAY", "ECL", "EIX", "EW", "EA", "ELV", "LLY", "EMR", "ENPH", "ETR",
  "EOG", "EPAM", "EQT", "EFX", "EQIX", "EQR", "ESS", "EL", "ETSY", "EG",
  "EVRG", "ES", "EXC", "EXPE", "EXPD", "EXR", "XOM", "FFIV", "FDS",
  "FICO", "FAST", "FRT", "FDX", "FITB", "FSLR", "FE", "FIS", "FI", "FLT",
  "FMC", "F", "FTNT", "FTV", "FOXA", "FOX", "BEN", "FCX", "GRMN", "IT",
  "GEHC", "GEN", "GNRC", "GD", "GE", "GIS", "GM", "GPC", "GILD", "GL",
  "GPN", "GS", "HAL", "HIG", "HAS", "HCA", "PEAK", "HSIC", "HSY", "HES",
  "HPE", "HLT", "HOLX", "HD", "HON", "HRL", "HST", "HWM", "HPQ", "HUM",
  "HBAN", "HII", "IBM", "IEX", "IDXX", "ITW", "ILMN", "INCY", "IR",
  "PODD", "INTC", "ICE", "IFF", "IP", "IPG", "INTU", "ISRG", "IVZ",
  "INVH", "IQV", "IRM", "JBHT", "JKHY", "J", "JNJ", "JCI", "JPM", "JNPR",
  "K", "KDP", "KEY", "KEYS", "KMB", "KIM", "KMI", "KLAC", "KHC", "KR",
  "LHX", "LH", "LRCX", "LW", "LVS", "LDOS", "LEN", "LNC", "LIN", "LYV",
  "LKQ", "LMT", "L", "LOW", "LYB", "MTB", "MRO", "MPC", "MKTX", "MAR",
  "MMC", "MLM", "MAS", "MA", "MTCH", "MKC", "MCD", "MCK", "MDT", "MRK",
  "META", "MET", "MTD", "MGM", "MCHP", "MU", "MSFT", "MAA", "MRNA", "MHK",
  "MOH", "TAP", "MDLZ", "MPWR", "MNST", "MCO", "MS", "MOS", "MSI", "MSCI",
  "NDAQ", "NTAP", "NFLX", "NWL", "NEM", "NWSA", "NWS", "NEE", "NKE", "NI",
  "NDSN", "NSC", "NTRS", "NOC", "NCLH", "NRG", "NUE", "NVDA", "NVR",
  "NXPI", "ORLY", "OXY", "ODFL", "OMC", "ON", "OKE", "ORCL", "OGN",
  "OTIS", "PCAR", "PKG", "PANW", "PARA", "PH", "PAYX", "PAYC", "PYPL",
  "PNR", "PEP", "PFE", "PCG", "PM", "PSX", "PNW", "PXD", "PNC", "POOL",
  "PPG", "PPL", "PFG", "PG", "PGR", "PLD", "PRU", "PEG", "PTC", "PSA",
  "PHM", "QRVO", "PWR", "QCOM", "DGX", "RL", "RJF", "RTX", "O", "REG",
  "REGN", "RF", "RSG", "RMD", "RVTY", "RHI", "ROK", "ROL", "ROP", "ROST",
  "RCL", "SPGI", "CRM", "SBAC", "SLB", "STX", "SEE", "SRE", "NOW", "SHW",
  "SPG", "SWKS", "SJM", "SNA", "SEDG", "SO", "LUV", "SWK", "SBUX", "STT",
  "STLD", "STE", "SYK", "SYF", "SNPS", "SYY", "TMUS", "TROW", "TTWO",
  "TPR", "TRGP", "TGT", "TEL", "TDY", "TFX", "TER", "TSLA", "TXN", "TXT",
  "TMO", "TJX", "TSCO", "TT", "TDG", "TRV", "TRMB", "TFC", "TYL", "TSN",
  "USB", "UDR", "ULTA", "UNP", "UAL", "UPS", "URI", "UNH", "UHS", "VLO",
  "VTR", "VRSN", "VRSK", "VZ", "VRTX", "VFC", "VTRS", "VICI", "V", "VMC",
  "WAB", "WBA", "WMT", "WBD", "WM", "WAT", "WEC", "WFC", "WELL", "WST",
  "WDC", "WRK", "WY", "WHR", "WMB", "WTW", "GWW", "WYNN", "XEL", "XYL",
  "YUM", "ZBRA", "ZBH", "ZION", "ZTS"]

/-- Python list indexing `l[i]` for `i : int`: negative indices wrap once by
`len(l)`; anything still out of `[0, len(l))` raises `IndexError`. -/
def pyListIndex (l : List String) (i : Int) : Except PyErr String :=
  let j : Int := if i < 0 then i + l.length else i
  if h : 0 ≤ j ∧ j < (l.length : Int) then .ok (l.get ⟨j.toNat, by omega⟩)
  else .error .indexError

/-- Embedding of `_pick_sp500_symbols(choice)`:
`[SP_500[i] for i in _get_ith_comb(len(SP_500), N_PICKS, choice)]`. -/
def pickSp500Symbols (choice : Int) : Except PyErr (List String) := do
  let comb ← getIthComb (SP_500.length : Int) (N_PICKS : Int) choice
  comb.mapM (pyListIndex SP_500)

/-- Modelled from the spec: the reference interpolation value
`rank = floor(digest / 2^(B²) * M)` read in exact arithmetic.  The
program's float computation is embedded separately as `interp49BitFloat`
below; this exact value is what the claims' results are compared
against. -/
def interp49BitNum (d ySup : Nat) : Int :=
  ⌊(d : ℚ) / 2 ^ (SR_BITS ^ 2) * (ySup : ℚ)⌋

/-- Model of Python's `int(s, 2)` restricted to the shapes this program
produces: an optional `0b` prefix followed by a non-empty string of binary
digits; anything else raises `ValueError`. -/
def pyIntBase2 (s : List Char) : Except PyErr Nat :=
  let digits := if s.take 2 = ['0', 'b'] then s.drop 2 else s
  if digits.isEmpty then .error .valueError
  else if digits.all (fun c => c == '0' || c == '1') then
    .ok (digits.foldl (fun a c => 2 * a + (if c == '1' then 1 else 0)) 0)
  else .error .valueError

/-!
### Binary64 model of the float arithmetic in `_interp_49_bit`

`math.floor(int(x, 2) / 2 ** (SR_BITS ** 2) * y_sup)` runs on Python
floats.  The float runtime is not part of `src/divine.py`; it is modelled
here as IEEE-754 binary64 round-to-nearest-even arithmetic, which CPython
guarantees for `int / int` true division (correctly rounded, raising
`OverflowError` when the rounded quotient is at least 2^1024), for the
implicit `int` → `float` conversion of `y_sup` (same rounding and
overflow behaviour), and for float multiplication (rounded product;
a product at or above 2^1024 becomes `inf`, on which `math.floor` raises
`OverflowError`).  A float is represented exactly as a pair
`(mantissa, exponent) : Nat × Int` of value `mantissa * 2 ^ exponent`
(all values arising here are nonnegative and far from the subnormal
range); `rnPair a b` rounds the rational `a / b` to 53 significant bits
with ties to even, and a rounded value `m * 2 ^ E` normalised to
`2^52 ≤ m < 2^53` is at least 2^1024 exactly when `972 ≤ E`.
-/

def log2fuel : Nat → Nat → Nat
  | 0, _ => 0
  | fuel + 1, n => if n ≤ 1 then 0 else log2fuel fuel (n / 2) + 1

def nlog2 (n : Nat) : Nat := log2fuel n n

theorem log2fuel_spec (fuel : Nat) : ∀ n, 1 ≤ n → n ≤ fuel →
    2 ^ log2fuel fuel n ≤ n ∧ n < 2 ^ (log2fuel fuel n + 1) := by
  induction fuel with
  | zero => intro n h1 h2; omega
  | succ fuel ih =>
    intro n h1 h2
    rw [log2fuel]
    by_cases hle : n ≤ 1
    · rw [if_pos hle]
      constructor
      · simpa using h1
      · simpa using by omega
    · rw [if_neg hle]
      have h2' : n / 2 ≤ fuel := by omega
      have h1' : 1 ≤ n / 2 := by omega
      obtain ⟨hlo, hhi⟩ := ih (n / 2) h1' h2'
      constructor
      · calc 2 ^ (log2fuel fuel (n / 2) + 1) = 2 ^ log2fuel fuel (n / 2) * 2 := by
              rw [pow_succ]
          _ ≤ n / 2 * 2 := by omega
          _ ≤ n := by omega
      · have : n < (n / 2 + 1) * 2 := by omega
        calc n < (n / 2 + 1) * 2 := this
          _ ≤ 2 ^ (log2fuel fuel (n / 2) + 1) * 2 := by
              have : n / 2 + 1 ≤ 2 ^ (log2fuel fuel (n / 2) + 1) := by omega
              omega
          _ = 2 ^ (log2fuel fuel (n / 2) + 1 + 1) :=
              (pow_succ 2 (log2fuel fuel (n / 2) + 1)).symm

theorem nlog2_spec (n : Nat) (h : 1 ≤ n) :
    2 ^ nlog2 n ≤ n ∧ n < 2 ^ (nlog2 n + 1) :=
  log2fuel_spec n n h le_rfl

-- the rational comparison (a/b) < 2^s as an integer test
def qlt2pow (a b : Nat) (s : Int) : Bool :=
  if 0 ≤ s then decide (a < 2 ^ s.toNat * b) else decide (a * 2 ^ (-s).toNat < b)

theorem qlt2pow_iff (a b : Nat) (s : Int) (hb : 0 < b) :
    qlt2pow a b s = true ↔ (a : ℚ) / b < 2 ^ s := by
  have hbq : (0 : ℚ) < b := by exact_mod_cast hb
  rw [qlt2pow]
  rw [div_lt_iff₀ hbq]
  by_cases hs : 0 ≤ s
  · rw [if_pos hs, decide_eq_true_eq]
    have h2 : (2 : ℚ) ^ s = 2 ^ s.toNat := by
      rw [← zpow_natCast, Int.toNat_of_nonneg hs]
    rw [h2]
    constructor
    · intro h
      exact_mod_cast h
    · intro h
      exact_mod_cast h
  · rw [if_neg hs, decide_eq_true_eq]
    push_neg at hs
    have h2 : ((2 : ℚ) ^ (-s).toNat)⁻¹ = 2 ^ s := by
      rw [← zpow_natCast, Int.toNat_of_nonneg (by omega : (0 : Int) ≤ -s),
        ← zpow_neg, neg_neg]
    rw [← h2]
    have hp : (0 : ℚ) < (2 : ℚ) ^ (-s).toNat := by positivity
    rw [inv_mul_eq_div, lt_div_iff₀ hp]
    constructor
    · intro h
      exact_mod_cast h
    · intro h
      exact_mod_cast h

-- binary exponent of the positive rational a / b : the unique e with 2^e ≤ a/b < 2^(e+1)
def ilog2Pair (a b : Nat) : Int :=
  let e0 : Int := (nlog2 a : Int) - (nlog2 b : Int)
  if qlt2pow a b e0 then e0 - 1 else e0

theorem ilog2Pair_spec (a b : Nat) (ha : 0 < a) (hb : 0 < b) :
    (2 : ℚ) ^ ilog2Pair a b ≤ (a : ℚ) / b ∧
      (a : ℚ) / b < 2 ^ (ilog2Pair a b + 1) := by
  have hbq : (0 : ℚ) < b := by exact_mod_cast hb
  obtain ⟨ha1, ha2⟩ := nlog2_spec a ha
  obtain ⟨hb1, hb2⟩ := nlog2_spec b hb
  set La := nlog2 a with hLa
  set Lb := nlog2 b with hLb
  set e0 : Int := (La : Int) - (Lb : Int) with he0
  -- upper bound : a/b < 2^(e0+1)
  have hup : (a : ℚ) / b < 2 ^ (e0 + 1) := by
    rw [div_lt_iff₀ hbq]
    have key : (2 : ℚ) ^ ((La : Int) + 1) ≤ 2 ^ (e0 + 1) * b := by
      calc (2 : ℚ) ^ ((La : Int) + 1) = 2 ^ (e0 + 1) * 2 ^ (Lb : Int) := by
            rw [← zpow_add₀ (two_ne_zero)]
            congr 1
            omega
        _ ≤ 2 ^ (e0 + 1) * b := by
            have hcast : ((2 : ℚ) ^ (Lb : Int)) ≤ b := by
              rw [zpow_natCast]
              exact_mod_cast hb1
            have hpos : (0 : ℚ) < 2 ^ (e0 + 1) := by positivity
            nlinarith
    have haq : (a : ℚ) < 2 ^ ((La : Int) + 1) := by
      rw [show ((La : Int) + 1) = ((La + 1 : Nat) : Int) by omega, zpow_natCast]
      exact_mod_cast ha2
    linarith
  -- strict lower bound for e0 - 1 : 2^(e0-1) < a/b
  have hlo : (2 : ℚ) ^ (e0 - 1) < (a : ℚ) / b := by
    rw [lt_div_iff₀ hbq]
    have key : (2 : ℚ) ^ (e0 - 1) * b < 2 ^ (La : Int) := by
      calc (2 : ℚ) ^ (e0 - 1) * b < 2 ^ (e0 - 1) * 2 ^ ((Lb : Int) + 1) := by
            have hcast : (b : ℚ) < 2 ^ ((Lb : Int) + 1) := by
              rw [show ((Lb : Int) + 1) = ((Lb + 1 : Nat) : Int) by omega,
                zpow_natCast]
              exact_mod_cast hb2
            have hpos : (0 : ℚ) < 2 ^ (e0 - 1) := by positivity
            nlinarith
        _ = 2 ^ (La : Int) := by
            rw [← zpow_add₀ (two_ne_zero)]
            congr 1
            omega
    have haq : (2 : ℚ) ^ (La : Int) ≤ a := by
      rw [zpow_natCast]
      exact_mod_cast ha1
    linarith
  rw [ilog2Pair]
  by_cases hq : qlt2pow a b e0 = true
  · rw [if_pos hq]
    have hlt := (qlt2pow_iff a b e0 hb).mp hq
    refine ⟨le_of_lt hlo, ?_⟩
    simpa using hlt
  · rw [if_neg (by simpa using hq)]
    have hge : ¬ ((a : ℚ) / b < 2 ^ e0) := by
      intro hcon
      exact hq ((qlt2pow_iff a b e0 hb).mpr hcon)
    push_neg at hge
    exact ⟨hge, hup⟩

-- round-half-even of the rational a / b (b > 0) to an integer
def rheNat (a b : Nat) : Nat :=
  let f := a / b
  let r := a % b
  if 2 * r < b then f
  else if b < 2 * r then f + 1
  else if f % 2 = 0 then f else f + 1

theorem rheNat_bounds (a b : Nat) : a / b ≤ rheNat a b ∧ rheNat a b ≤ a / b + 1 := by
  rw [rheNat]
  split_ifs <;> omega

theorem int_floor_nat_div (a b : Nat) :
    ⌊(a : ℚ) / b⌋ = ((a / b : Nat) : Int) := by
  rw [← Int.natCast_floor_eq_floor (by positivity), Nat.floor_div_nat,
    Nat.floor_natCast]

theorem nat_div_qa (a b : Nat) (hb : 0 < b) :
    (a : ℚ) / b = ((a / b : Nat) : ℚ) + ((a % b : Nat) : ℚ) / b := by
  have hbq : (0 : ℚ) < b := by exact_mod_cast hb
  have h : (b : ℚ) * ((a / b : Nat) : ℚ) + ((a % b : Nat) : ℚ) = (a : ℚ) := by
    exact_mod_cast congrArg (Nat.cast : Nat → ℚ) (Nat.div_add_mod a b)
  field_simp
  linarith

theorem rheNat_le_q (a b : Nat) (hb : 0 < b) :
    (rheNat a b : ℚ) ≤ (a : ℚ) / b + 1 / 2 := by
  have hbq : (0 : ℚ) < b := by exact_mod_cast hb
  have hmod : a % b < b := Nat.mod_lt _ hb
  rw [nat_div_qa a b hb, rheNat]
  split_ifs with h1 h2 h3
  · have : (0 : ℚ) ≤ ((a % b : Nat) : ℚ) / b := by positivity
    push_cast
    linarith
  · -- b < 2 * (a % b) : the fractional part exceeds 1/2
    have : (1 : ℚ) / 2 < ((a % b : Nat) : ℚ) / b := by
      rw [div_lt_div_iff₀ (by norm_num) hbq]
      have : (b : ℚ) < 2 * ((a % b : Nat) : ℚ) := by exact_mod_cast h2
      linarith
    push_cast
    linarith
  · have : (0 : ℚ) ≤ ((a % b : Nat) : ℚ) / b := by positivity
    push_cast
    linarith
  · -- exact tie : 2 * (a % b) = b, fractional part is exactly 1/2
    have htie : ((a % b : Nat) : ℚ) / b = 1 / 2 := by
      rw [div_eq_div_iff hbq.ne' (by norm_num : (2:ℚ) ≠ 0)]
      have : 2 * ((a % b : Nat) : ℚ) = b := by exact_mod_cast (by omega : 2 * (a % b) = b)
      linarith
    push_cast
    linarith
  
theorem q_le_rheNat (a b : Nat) (hb : 0 < b) :
    (a : ℚ) / b - 1 / 2 ≤ (rheNat a b : ℚ) := by
  have hbq : (0 : ℚ) < b := by exact_mod_cast hb
  have hmod : a % b < b := Nat.mod_lt _ hb
  rw [nat_div_qa a b hb, rheNat]
  split_ifs with h1 h2 h3
  · have : ((a % b : Nat) : ℚ) / b < 1 / 2 := by
      rw [div_lt_div_iff₀ hbq (by norm_num)]
      have : 2 * ((a % b : Nat) : ℚ) < b := by exact_mod_cast h1
      linarith
    push_cast
    linarith
  · have : ((a % b : Nat) : ℚ) / b < 1 := by
      rw [div_lt_one hbq]
      exact_mod_cast hmod
    push_cast
    linarith
  · have htie : ((a % b : Nat) : ℚ) / b = 1 / 2 := by
      rw [div_eq_div_iff hbq.ne' (by norm_num : (2:ℚ) ≠ 0)]
      have : 2 * ((a % b : Nat) : ℚ) = b := by exact_mod_cast (by omega : 2 * (a % b) = b)
      linarith
    push_cast
    linarith
  · have htie : ((a % b : Nat) : ℚ) / b = 1 / 2 := by
      rw [div_eq_div_iff hbq.ne' (by norm_num : (2:ℚ) ≠ 0)]
      have : 2 * ((a % b : Nat) : ℚ) = b := by exact_mod_cast (by omega : 2 * (a % b) = b)
      linarith
    push_cast
    linarith

theorem rheNat_exact (a b : Nat) (hb : 0 < b) (hdvd : b ∣ a) :
    rheNat a b = a / b := by
  obtain ⟨c, rfl⟩ := hdvd
  have hr : b * c % b = 0 := Nat.mul_mod_right b c
  rw [rheNat]
  rw [if_pos (by omega)]

-- monotonicity of rheNat in the value of a / b, stated by cross-multiplication
theorem rheNat_mono (a1 b1 a2 b2 : Nat) (hb1 : 0 < b1) (hb2 : 0 < b2)
    (h : a1 * b2 ≤ a2 * b1) : rheNat a1 b1 ≤ rheNat a2 b2 := by
  have hq : (a1 : ℚ) / b1 ≤ (a2 : ℚ) / b2 := by
    rw [div_le_div_iff₀ (by exact_mod_cast hb1) (by exact_mod_cast hb2)]
    exact_mod_cast h
  have hf : a1 / b1 ≤ a2 / b2 := by
    have := Int.floor_mono hq
    rw [int_floor_nat_div, int_floor_nat_div] at this
    exact_mod_cast this
  rcases Nat.lt_or_ge (a1 / b1) (a2 / b2) with hlt | hge
  · have h1 := rheNat_bounds a1 b1
    have h2 := rheNat_bounds a2 b2
    omega
  · have hfe : a1 / b1 = a2 / b2 := le_antisymm hf hge
    -- same integer part; compare the fractional parts via cross-multiplication
    have hfrac : (a1 % b1) * b2 ≤ (a2 % b2) * b1 := by
      have e1 := Nat.div_add_mod a1 b1
      have e2 := Nat.div_add_mod a2 b2
      have expand : (b1 * (a1 / b1) + a1 % b1) * b2 ≤ (b2 * (a2 / b2) + a2 % b2) * b1 := by
        rw [e1, e2]; exact h
      have expand2 : b1 * b2 * (a1 / b1) + (a1 % b1) * b2 ≤
          b1 * b2 * (a2 / b2) + (a2 % b2) * b1 := by nlinarith [expand]
      rw [hfe] at expand2
      omega
    rw [rheNat, rheNat]
    -- transfer the half-comparisons across denominators
    have t1 : b1 < 2 * (a1 % b1) → b2 < 2 * (a2 % b2) := by
      intro hgt
      by_contra hcon
      push_neg at hcon
      nlinarith [hfrac]
    have t2 : 2 * (a1 % b1) = b1 → b2 ≤ 2 * (a2 % b2) := by
      intro heq
      by_contra hcon
      push_neg at hcon
      nlinarith [hfrac]
    split_ifs <;> omega

theorem two_zpow_pos (s : Int) : (0 : ℚ) < 2 ^ s := zpow_pos (by norm_num) s

theorem two_zpow_mul (s t : Int) : (2 : ℚ) ^ s * 2 ^ t = 2 ^ (s + t) :=
  (zpow_add₀ (two_ne_zero) s t).symm

theorem two_zpow_le {s t : Int} (h : s ≤ t) : (2 : ℚ) ^ s ≤ 2 ^ t :=
  (zpow_le_zpow_iff_right₀ (by norm_num : (1 : ℚ) < 2)).mpr h

theorem two_zpow_lt_iff {s t : Int} : (2 : ℚ) ^ s < 2 ^ t ↔ s < t :=
  zpow_lt_zpow_iff_right₀ (by norm_num : (1 : ℚ) < 2)

theorem two_pow_cast (n : Nat) : ((2 ^ n : Nat) : ℚ) = (2 : ℚ) ^ (n : Int) := by
  push_cast
  rw [zpow_natCast]

-- (a/b) * 2^s as a pair of naturals
def scaleShift (a b : Nat) (s : Int) : Nat × Nat :=
  if 0 ≤ s then (a * 2 ^ s.toNat, b) else (a, b * 2 ^ (-s).toNat)

theorem scaleShift_snd_pos (a b : Nat) (s : Int) (hb : 0 < b) :
    0 < (scaleShift a b s).2 := by
  rw [scaleShift]
  split_ifs
  · exact hb
  · exact Nat.mul_pos hb (Nat.pos_pow_of_pos _ (by norm_num))

theorem scaleShift_val (a b : Nat) (s : Int) (hb : 0 < b) :
    ((scaleShift a b s).1 : ℚ) / ((scaleShift a b s).2 : ℚ) =
      (a : ℚ) / b * 2 ^ s := by
  have hbq : (0 : ℚ) < b := by exact_mod_cast hb
  rw [scaleShift]
  split_ifs with hs
  · have h2 : (2 : ℚ) ^ s = 2 ^ s.toNat := by
      rw [← zpow_natCast, Int.toNat_of_nonneg hs]
    rw [h2]
    push_cast
    ring
  · have h2 : ((2 : ℚ) ^ (-s).toNat)⁻¹ = 2 ^ s := by
      rw [← zpow_natCast, Int.toNat_of_nonneg (by omega : (0 : Int) ≤ -s),
        ← zpow_neg, neg_neg]
    rw [← h2]
    have hp : (0 : ℚ) < (2 : ℚ) ^ (-s).toNat := by positivity
    push_cast
    field_simp

-- the scaled fraction whose round gives the 53-bit mantissa
def rnScaled (a b : Nat) : Nat × Nat := scaleShift a b (52 - ilog2Pair a b)

-- the (pre-renormalization) mantissa
def rnMant (a b : Nat) : Nat := rheNat (rnScaled a b).1 (rnScaled a b).2

-- round a/b (a, b naturals, b > 0) to nearest-even binary64 mantissa/exponent,
-- with unbounded exponent range (no overflow or subnormal handling here)
def rnPair (a b : Nat) : Nat × Int :=
  if a = 0 then (0, 0)
  else if rnMant a b = 2 ^ 53 then (2 ^ 52, ilog2Pair a b - 51)
  else (rnMant a b, ilog2Pair a b - 52)

-- exact value of a mantissa/exponent pair
def pairVal (p : Nat × Int) : ℚ := (p.1 : ℚ) * 2 ^ p.2

theorem pairVal_nonneg (p : Nat × Int) : 0 ≤ pairVal p := by
  rw [pairVal]
  positivity

theorem rnScaled_char (a b : Nat) (ha : 0 < a) (hb : 0 < b) :
    ((rnScaled a b).1 : ℚ) / ((rnScaled a b).2 : ℚ) =
        (a : ℚ) / b * 2 ^ (52 - ilog2Pair a b) ∧
      (2 : ℚ) ^ (52 : Int) ≤ ((rnScaled a b).1 : ℚ) / ((rnScaled a b).2 : ℚ) ∧
      ((rnScaled a b).1 : ℚ) / ((rnScaled a b).2 : ℚ) < 2 ^ (53 : Int) := by
  obtain ⟨hlo, hhi⟩ := ilog2Pair_spec a b ha hb
  have hval := scaleShift_val a b (52 - ilog2Pair a b) hb
  rw [rnScaled]
  refine ⟨hval, ?_, ?_⟩
  · rw [hval]
    have hp := two_zpow_pos (52 - ilog2Pair a b)
    calc (2 : ℚ) ^ (52 : Int) = 2 ^ ilog2Pair a b * 2 ^ (52 - ilog2Pair a b) := by
          rw [two_zpow_mul]
          congr 1
          omega
      _ ≤ (a : ℚ) / b * 2 ^ (52 - ilog2Pair a b) := by nlinarith
  · rw [hval]
    have hp := two_zpow_pos (52 - ilog2Pair a b)
    calc (a : ℚ) / b * 2 ^ (52 - ilog2Pair a b) <
          2 ^ (ilog2Pair a b + 1) * 2 ^ (52 - ilog2Pair a b) := by nlinarith
      _ = 2 ^ (53 : Int) := by
          rw [two_zpow_mul]
          congr 1
          omega

theorem rnMant_bounds (a b : Nat) (ha : 0 < a) (hb : 0 < b) :
    2 ^ 52 ≤ rnMant a b ∧ rnMant a b ≤ 2 ^ 53 := by
  obtain ⟨hval, hlo, hhi⟩ := rnScaled_char a b ha hb
  have hB : 0 < (rnScaled a b).2 := scaleShift_snd_pos a b _ hb
  have hBq : (0 : ℚ) < ((rnScaled a b).2 : ℚ) := by exact_mod_cast hB
  have hdiv_lo : 2 ^ 52 ≤ (rnScaled a b).1 / (rnScaled a b).2 := by
    rw [Nat.le_div_iff_mul_le hB]
    have h : (2 : ℚ) ^ (52 : Int) * (rnScaled a b).2 ≤ (rnScaled a b).1 := by
      rw [← le_div_iff₀ hBq]
      exact hlo
    have h52 : (2 : ℚ) ^ (52 : Int) = ((2 ^ 52 : Nat) : ℚ) := by norm_num
    rw [h52] at h
    exact_mod_cast h
  have hdiv_hi : (rnScaled a b).1 / (rnScaled a b).2 < 2 ^ 53 := by
    rw [Nat.div_lt_iff_lt_mul hB]
    have h : ((rnScaled a b).1 : ℚ) < 2 ^ (53 : Int) * (rnScaled a b).2 := by
      rw [← div_lt_iff₀ hBq]
      exact hhi
    have h53 : (2 : ℚ) ^ (53 : Int) = ((2 ^ 53 : Nat) : ℚ) := by norm_num
    rw [h53] at h
    exact_mod_cast h
  obtain ⟨h1, h2⟩ := rheNat_bounds (rnScaled a b).1 (rnScaled a b).2
  rw [rnMant]
  omega

theorem rnPair_val (a b : Nat) (ha : 0 < a) (hb : 0 < b) :
    pairVal (rnPair a b) = (rnMant a b : ℚ) * 2 ^ (ilog2Pair a b - 52) := by
  rw [rnPair, if_neg (by omega)]
  split_ifs with hc
  · rw [pairVal]
    simp only
    rw [hc]
    rw [two_pow_cast, two_pow_cast, two_zpow_mul, two_zpow_mul]
    congr 1
    omega
  · rw [pairVal]

theorem rnPair_fst (a b : Nat) (ha : 0 < a) (hb : 0 < b) :
    2 ^ 52 ≤ (rnPair a b).1 ∧ (rnPair a b).1 < 2 ^ 53 := by
  obtain ⟨h1, h2⟩ := rnMant_bounds a b ha hb
  rw [rnPair, if_neg (by omega)]
  split_ifs with hc
  · norm_num
  · constructor
    · exact h1
    · omega

theorem rnPair_snd_le (a b : Nat) (ha : 0 < a) (hb : 0 < b) :
    (rnPair a b).2 ≤ ilog2Pair a b - 51 := by
  rw [rnPair, if_neg (by omega)]
  split_ifs <;> simp <;> omega

theorem rnPair_zero_pairVal (b : Nat) : pairVal (rnPair 0 b) = 0 := by
  rw [rnPair, if_pos rfl, pairVal]
  norm_num

-- the rounded value stays in the binade [2^e, 2^(e+1)] of the input
theorem rnPair_range (a b : Nat) (ha : 0 < a) (hb : 0 < b) :
    (2 : ℚ) ^ ilog2Pair a b ≤ pairVal (rnPair a b) ∧
      pairVal (rnPair a b) ≤ 2 ^ (ilog2Pair a b + 1) := by
  obtain ⟨hm1, hm2⟩ := rnMant_bounds a b ha hb
  rw [rnPair_val a b ha hb]
  have hp := two_zpow_pos (ilog2Pair a b - 52)
  have hc1 : ((2 ^ 52 : Nat) : ℚ) ≤ (rnMant a b : ℚ) := by exact_mod_cast hm1
  have hc2 : (rnMant a b : ℚ) ≤ ((2 ^ 53 : Nat) : ℚ) := by exact_mod_cast hm2
  have h52 : ((2 ^ 52 : Nat) : ℚ) = (2 : ℚ) ^ (52 : Int) := by norm_num
  have h53 : ((2 ^ 53 : Nat) : ℚ) = (2 : ℚ) ^ (53 : Int) := by norm_num
  rw [h52] at hc1
  rw [h53] at hc2
  constructor
  · calc (2 : ℚ) ^ ilog2Pair a b = 2 ^ (52 : Int) * 2 ^ (ilog2Pair a b - 52) := by
          rw [two_zpow_mul]
          congr 1
          omega
      _ ≤ (rnMant a b : ℚ) * 2 ^ (ilog2Pair a b - 52) := by nlinarith
  · calc (rnMant a b : ℚ) * 2 ^ (ilog2Pair a b - 52) ≤
          2 ^ (53 : Int) * 2 ^ (ilog2Pair a b - 52) := by nlinarith
      _ = 2 ^ (ilog2Pair a b + 1) := by
          rw [two_zpow_mul]
          congr 1
          omega

-- relative error bound : the rounded value is within q * 2^-53 of q
theorem rnPair_approx (a b : Nat) (ha : 0 < a) (hb : 0 < b) :
    (a : ℚ) / b - ((a : ℚ) / b) / 2 ^ 53 ≤ pairVal (rnPair a b) ∧
      pairVal (rnPair a b) ≤ (a : ℚ) / b + ((a : ℚ) / b) / 2 ^ 53 := by
  obtain ⟨hval, hlo, hhi⟩ := rnScaled_char a b ha hb
  have hB : 0 < (rnScaled a b).2 := scaleShift_snd_pos a b _ hb
  have hq1 := rheNat_le_q (rnScaled a b).1 (rnScaled a b).2 hB
  have hq2 := q_le_rheNat (rnScaled a b).1 (rnScaled a b).2 hB
  rw [hval] at hq1 hq2
  rw [rnPair_val a b ha hb, rnMant]
  have hp := two_zpow_pos (ilog2Pair a b - 52)
  have hcol : (a : ℚ) / b * 2 ^ (52 - ilog2Pair a b) * 2 ^ (ilog2Pair a b - 52) =
      (a : ℚ) / b := by
    rw [mul_assoc, two_zpow_mul]
    rw [show (52 - ilog2Pair a b) + (ilog2Pair a b - 52) = 0 by omega]
    norm_num
  -- 2^(e-53) ≤ q / 2^53, from 2^e ≤ q
  obtain ⟨hqlo, _⟩ := ilog2Pair_spec a b ha hb
  have herr : (2 : ℚ) ^ (ilog2Pair a b - 52) / 2 ≤ ((a : ℚ) / b) / 2 ^ 53 := by
    have hstep : (2 : ℚ) ^ (ilog2Pair a b - 52) / 2 = 2 ^ ilog2Pair a b / 2 ^ (53 : Int) := by
      rw [div_eq_div_iff (by norm_num) (by positivity)]
      rw [show ((2 : ℚ) ^ (53 : Int)) = 2 ^ (52 : Int) * 2 by
        rw [show (53 : Int) = 52 + 1 by norm_num, zpow_add₀ (two_ne_zero)]
        norm_num]
      rw [← mul_assoc, two_zpow_mul]
      rw [show ilog2Pair a b - 52 + 52 = ilog2Pair a b by omega]
    rw [hstep]
    have h53 : ((2 : ℚ) ^ (53 : Int)) = ((2 : ℚ) ^ (53 : Nat)) := by norm_num
    rw [h53]
    have hd : (0 : ℚ) < 2 ^ (53 : Nat) := by positivity
    exact (div_le_div_right hd).mpr hqlo
  constructor
  · have : ((a : ℚ) / b * 2 ^ (52 - ilog2Pair a b) - 1 / 2) * 2 ^ (ilog2Pair a b - 52) ≤
        (rheNat (rnScaled a b).1 (rnScaled a b).2 : ℚ) * 2 ^ (ilog2Pair a b - 52) := by nlinarith
    have hexp : ((a : ℚ) / b * 2 ^ (52 - ilog2Pair a b) - 1 / 2) * 2 ^ (ilog2Pair a b - 52) =
        (a : ℚ) / b - 2 ^ (ilog2Pair a b - 52) / 2 := by
      rw [sub_mul, hcol]
      ring
    rw [hexp] at this
    linarith
  · have : (rheNat (rnScaled a b).1 (rnScaled a b).2 : ℚ) * 2 ^ (ilog2Pair a b - 52) ≤
        ((a : ℚ) / b * 2 ^ (52 - ilog2Pair a b) + 1 / 2) * 2 ^ (ilog2Pair a b - 52) := by
      nlinarith
    have hexp : ((a : ℚ) / b * 2 ^ (52 - ilog2Pair a b) + 1 / 2) * 2 ^ (ilog2Pair a b - 52) =
        (a : ℚ) / b + 2 ^ (ilog2Pair a b - 52) / 2 := by
      rw [add_mul, hcol]
      ring
    rw [hexp] at this
    linarith

-- values representable with at most 53 significant bits are rounded exactly
theorem rnPair_exact (a b n : Nat) (t : Int) (ha : 0 < a) (hb : 0 < b)
    (hq : (a : ℚ) / b = (n : ℚ) * 2 ^ t) (hn : n < 2 ^ 53) :
    pairVal (rnPair a b) = (a : ℚ) / b := by
  have hbq : (0 : ℚ) < b := by exact_mod_cast hb
  have haq : (0 : ℚ) < a := by exact_mod_cast ha
  have hqpos : (0 : ℚ) < (a : ℚ) / b := by positivity
  obtain ⟨hval, hμlo, hμhi⟩ := rnScaled_char a b ha hb
  have hB : 0 < (rnScaled a b).2 := scaleShift_snd_pos a b _ hb
  have hBq : (0 : ℚ) < ((rnScaled a b).2 : ℚ) := by exact_mod_cast hB
  have hμform : ((rnScaled a b).1 : ℚ) / ((rnScaled a b).2 : ℚ) =
      (n : ℚ) * 2 ^ (t + (52 - ilog2Pair a b)) := by
    rw [hval, hq, mul_assoc, two_zpow_mul]
  have hnq : (n : ℚ) < 2 ^ (53 : Int) := by
    have : ((n : ℚ)) < ((2 ^ 53 : Nat) : ℚ) := by exact_mod_cast hn
    have h53 : ((2 ^ 53 : Nat) : ℚ) = (2 : ℚ) ^ (53 : Int) := by norm_num
    rwa [h53] at this
  have hs : 0 ≤ t + (52 - ilog2Pair a b) := by
    by_contra hcon
    push_neg at hcon
    have hle : (2 : ℚ) ^ (t + (52 - ilog2Pair a b)) ≤ 2 ^ (-1 : Int) :=
      two_zpow_le (by omega)
    have hnn : (0 : ℚ) ≤ (n : ℚ) := by positivity
    have hlt : ((rnScaled a b).1 : ℚ) / ((rnScaled a b).2 : ℚ) < 2 ^ (52 : Int) := by
      rw [hμform]
      calc (n : ℚ) * 2 ^ (t + (52 - ilog2Pair a b)) ≤ (n : ℚ) * 2 ^ (-1 : Int) := by
            nlinarith
        _ < 2 ^ (53 : Int) * 2 ^ (-1 : Int) := by
            have := two_zpow_pos (-1 : Int)
            nlinarith
        _ = 2 ^ (52 : Int) := by
            rw [two_zpow_mul]
            norm_num
    linarith
  -- the scaled value is the integer n * 2^(t + 52 - e)
  set s := t + (52 - ilog2Pair a b) with hsdef
  have hNform : ((n * 2 ^ s.toNat : Nat) : ℚ) = (n : ℚ) * 2 ^ s := by
    push_cast
    congr 1
    rw [← zpow_natCast, Int.toNat_of_nonneg hs]
  have hAeq : (rnScaled a b).1 = n * 2 ^ s.toNat * (rnScaled a b).2 := by
    have : ((rnScaled a b).1 : ℚ) = ((n * 2 ^ s.toNat : Nat) : ℚ) * ((rnScaled a b).2 : ℚ) := by
      rw [hNform, ← hμform, div_mul_cancel₀]
      exact hBq.ne'
    exact_mod_cast this
  have hmant : rnMant a b = n * 2 ^ s.toNat := by
    rw [rnMant, hAeq, rheNat_exact _ _ hB (dvd_mul_left _ _), Nat.mul_div_cancel _ hB]
  rw [rnPair_val a b ha hb, hmant, hNform, hq]
  rw [mul_assoc, two_zpow_mul, hsdef]
  rw [show t + (52 - ilog2Pair a b) + (ilog2Pair a b - 52) = t by omega]

-- monotonicity of rounding, up to exact powers of two on either side
theorem rnPair_mono_shift (a1 b1 a2 b2 : Nat) (k1 k2 : Int)
    (hb1 : 0 < b1) (hb2 : 0 < b2)
    (h : (a1 : ℚ) / b1 * 2 ^ k1 ≤ (a2 : ℚ) / b2 * 2 ^ k2) :
    pairVal (rnPair a1 b1) * 2 ^ k1 ≤ pairVal (rnPair a2 b2) * 2 ^ k2 := by
  rcases Nat.eq_zero_or_pos a1 with h1 | h1
  · rw [h1, rnPair_zero_pairVal, zero_mul]
    exact mul_nonneg (pairVal_nonneg _) (le_of_lt (two_zpow_pos _))
  rcases Nat.eq_zero_or_pos a2 with h2 | h2
  · exfalso
    have hq1 : (0 : ℚ) < (a1 : ℚ) / b1 := by
      have : (0 : ℚ) < (a1 : ℚ) := by exact_mod_cast h1
      have : (0 : ℚ) < (b1 : ℚ) := by exact_mod_cast hb1
      positivity
    have hz : (a2 : ℚ) / b2 * 2 ^ k2 = 0 := by
      rw [h2]
      norm_num
    nlinarith [two_zpow_pos k1]
  obtain ⟨hlo1, hhi1⟩ := ilog2Pair_spec a1 b1 h1 hb1
  obtain ⟨hlo2, hhi2⟩ := ilog2Pair_spec a2 b2 h2 hb2
  have hp1 := two_zpow_pos k1
  have hp2 := two_zpow_pos k2
  have he : ilog2Pair a1 b1 + k1 ≤ ilog2Pair a2 b2 + k2 := by
    have hchain : (2 : ℚ) ^ (ilog2Pair a1 b1 + k1) < 2 ^ (ilog2Pair a2 b2 + 1 + k2) := by
      calc (2 : ℚ) ^ (ilog2Pair a1 b1 + k1) = 2 ^ ilog2Pair a1 b1 * 2 ^ k1 :=
            (two_zpow_mul _ _).symm
        _ ≤ (a1 : ℚ) / b1 * 2 ^ k1 := by nlinarith
        _ ≤ (a2 : ℚ) / b2 * 2 ^ k2 := h
        _ < 2 ^ (ilog2Pair a2 b2 + 1) * 2 ^ k2 := by nlinarith
        _ = 2 ^ (ilog2Pair a2 b2 + 1 + k2) := two_zpow_mul _ _
    have := two_zpow_lt_iff.mp hchain
    omega
  obtain ⟨hr1lo, hr1hi⟩ := rnPair_range a1 b1 h1 hb1
  obtain ⟨hr2lo, hr2hi⟩ := rnPair_range a2 b2 h2 hb2
  rcases lt_or_eq_of_le he with hlt | heq
  · calc pairVal (rnPair a1 b1) * 2 ^ k1 ≤ 2 ^ (ilog2Pair a1 b1 + 1) * 2 ^ k1 := by
          nlinarith
      _ = 2 ^ (ilog2Pair a1 b1 + 1 + k1) := two_zpow_mul _ _
      _ ≤ 2 ^ (ilog2Pair a2 b2 + k2) := two_zpow_le (by omega)
      _ = 2 ^ ilog2Pair a2 b2 * 2 ^ k2 := (two_zpow_mul _ _).symm
      _ ≤ pairVal (rnPair a2 b2) * 2 ^ k2 := by nlinarith
  · -- equal shifted binades : compare the mantissas
    obtain ⟨hval1, _, _⟩ := rnScaled_char a1 b1 h1 hb1
    obtain ⟨hval2, _, _⟩ := rnScaled_char a2 b2 h2 hb2
    have hB1 : 0 < (rnScaled a1 b1).2 := scaleShift_snd_pos a1 b1 _ hb1
    have hB2 : 0 < (rnScaled a2 b2).2 := scaleShift_snd_pos a2 b2 _ hb2
    have hμ : ((rnScaled a1 b1).1 : ℚ) / ((rnScaled a1 b1).2 : ℚ) ≤
        ((rnScaled a2 b2).1 : ℚ) / ((rnScaled a2 b2).2 : ℚ) := by
      rw [hval1, hval2]
      have hmul := mul_le_mul_of_nonneg_right h
        (le_of_lt (two_zpow_pos (52 - ilog2Pair a1 b1 - k1)))
      calc (a1 : ℚ) / b1 * 2 ^ (52 - ilog2Pair a1 b1)
          = (a1 : ℚ) / b1 * 2 ^ k1 * 2 ^ (52 - ilog2Pair a1 b1 - k1) := by
            rw [mul_assoc, two_zpow_mul]
            congr 2
            omega
        _ ≤ (a2 : ℚ) / b2 * 2 ^ k2 * 2 ^ (52 - ilog2Pair a1 b1 - k1) := hmul
        _ = (a2 : ℚ) / b2 * 2 ^ (52 - ilog2Pair a2 b2) := by
            rw [mul_assoc, two_zpow_mul]
            congr 2
            omega
    have hcross : (rnScaled a1 b1).1 * (rnScaled a2 b2).2 ≤
        (rnScaled a2 b2).1 * (rnScaled a1 b1).2 := by
      rw [div_le_div_iff (by exact_mod_cast hB1) (by exact_mod_cast hB2)] at hμ
      exact_mod_cast hμ
    have hM : rnMant a1 b1 ≤ rnMant a2 b2 :=
      rheNat_mono _ _ _ _ hB1 hB2 hcross
    have hMq : (rnMant a1 b1 : ℚ) ≤ (rnMant a2 b2 : ℚ) := by exact_mod_cast hM
    rw [rnPair_val a1 b1 h1 hb1, rnPair_val a2 b2 h2 hb2]
    rw [mul_assoc, mul_assoc, two_zpow_mul, two_zpow_mul]
    rw [show ilog2Pair a1 b1 - 52 + k1 = ilog2Pair a2 b2 - 52 + k2 by omega]
    have := two_zpow_pos (ilog2Pair a2 b2 - 52 + k2)
    nlinarith

-- float multiplication : round the product of the mantissas, add the exponents
def rnMul (x y : Nat × Int) : Nat × Int :=
  let r := rnPair (x.1 * y.1) 1
  (r.1, r.2 + x.2 + y.2)

theorem pairVal_rnMul (x y : Nat × Int) :
    pairVal (rnMul x y) = pairVal (rnPair (x.1 * y.1) 1) * 2 ^ (x.2 + y.2) := by
  show ((rnPair (x.1 * y.1) 1).1 : ℚ) *
      2 ^ ((rnPair (x.1 * y.1) 1).2 + x.2 + y.2) = _
  rw [pairVal, mul_assoc, two_zpow_mul]
  congr 2
  omega

-- math.floor of a mantissa/exponent value
def floorPair (p : Nat × Int) : Int :=
  if 0 ≤ p.2 then ((p.1 * 2 ^ p.2.toNat : Nat) : Int)
  else ((p.1 / 2 ^ (-p.2).toNat : Nat) : Int)

theorem floorPair_eq (p : Nat × Int) : floorPair p = ⌊pairVal p⌋ := by
  rw [floorPair, pairVal]
  split_ifs with hs
  · have hval : (p.1 : ℚ) * 2 ^ p.2 = ((p.1 * 2 ^ p.2.toNat : Nat) : ℚ) := by
      push_cast
      congr 1
      rw [← zpow_natCast, Int.toNat_of_nonneg hs]
    rw [hval, Int.floor_natCast]
  · have hval : (p.1 : ℚ) * 2 ^ p.2 = (p.1 : ℚ) / ((2 ^ (-p.2).toNat : Nat) : ℚ) := by
      push_cast
      rw [div_eq_mul_inv]
      congr 1
      rw [← zpow_natCast, Int.toNat_of_nonneg (by omega : (0 : Int) ≤ -p.2),
        ← zpow_neg, neg_neg]
    rw [hval, int_floor_nat_div]

theorem pairVal_mul_pair (x y : Nat × Int) :
    ((x.1 * y.1 : Nat) : ℚ) / 1 * 2 ^ (x.2 + y.2) = pairVal x * pairVal y := by
  rw [div_one, pairVal, pairVal]
  push_cast
  rw [← two_zpow_mul]
  ring

theorem rnPair_snd_lt (a b : Nat) (ha : 0 < a) (hb : 0 < b) (c : Int)
    (hq : (a : ℚ) / b < 2 ^ (c + 1)) : (rnPair a b).2 ≤ c - 51 := by
  have hsnd := rnPair_snd_le a b ha hb
  obtain ⟨hlo, _⟩ := ilog2Pair_spec a b ha hb
  have hlt : (2 : ℚ) ^ ilog2Pair a b < 2 ^ (c + 1) := lt_of_le_of_lt hlo hq
  have := two_zpow_lt_iff.mp hlt
  omega

/-- Embedding of `_interp_49_bit(x, y_sup)` on the digest value
`d = int(x, 2)`: the correctly rounded float division `d / 2 ** 49`,
the rounded conversion of `y_sup` to float, the rounded float product,
and `math.floor`; each stage raises `OverflowError` at or above 2^1024
as described above. -/
def interp49BitFloat (d M : Nat) : Except PyErr Int :=
  let q1 := rnPair d (2 ^ (SR_BITS ^ 2))
  if q1.1 ≠ 0 ∧ 972 ≤ q1.2 then .error .overflowError
  else
    let fM := rnPair M 1
    if fM.1 ≠ 0 ∧ 972 ≤ fM.2 then .error .overflowError
    else
      let p := rnMul q1 fM
      if p.1 ≠ 0 ∧ 972 ≤ p.2 then .error .overflowError
      else .ok (floorPair p)

theorem interp49BitFloat_def (d M : Nat) :
    interp49BitFloat d M =
      if (rnPair d (2 ^ 49)).1 ≠ 0 ∧ 972 ≤ (rnPair d (2 ^ 49)).2 then
        .error PyErr.overflowError
      else if (rnPair M 1).1 ≠ 0 ∧ 972 ≤ (rnPair M 1).2 then
        .error PyErr.overflowError
      else if (rnMul (rnPair d (2 ^ 49)) (rnPair M 1)).1 ≠ 0 ∧
          972 ≤ (rnMul (rnPair d (2 ^ 49)) (rnPair M 1)).2 then
        .error PyErr.overflowError
      else .ok (floorPair (rnMul (rnPair d (2 ^ 49)) (rnPair M 1))) := rfl

-- guard bounds shared by the main theorems
theorem rnPair_zero (b : Nat) : rnPair 0 b = (0, 0) := by
  rw [rnPair, if_pos rfl]

theorem rnMul_zero_fst (b : Nat) (y : Nat × Int) :
    (rnMul (rnPair 0 b) y).1 = 0 := by
  rw [rnPair_zero]
  show (rnPair (0 * y.1) 1).1 = 0
  rw [zero_mul, rnPair_zero]

theorem interp49Float_guards (d M : Nat) (hd : d < 2 ^ 49) (hM1 : 0 < M)
    (hM2 : M ≤ 2 ^ 49) :
    interp49BitFloat d M =
      .ok (floorPair (rnMul (rnPair d (2 ^ 49)) (rnPair M 1))) := by
  have hT : (0 : Nat) < 2 ^ 49 := by positivity
  have hTq : (0 : ℚ) < ((2 ^ 49 : Nat) : ℚ) := by exact_mod_cast hT
  -- the converted bound fits far below the overflow threshold
  have hfM2 : (rnPair M 1).2 ≤ -2 := by
    have h50 : (M : ℚ) / 1 < 2 ^ (49 + 1 : Int) := by
      rw [div_one]
      have : (M : ℚ) ≤ ((2 ^ 49 : Nat) : ℚ) := by exact_mod_cast hM2
      have h49 : ((2 ^ 49 : Nat) : ℚ) < 2 ^ (49 + 1 : Int) := by norm_num
      linarith
    have := rnPair_snd_lt M 1 hM1 (by norm_num) 49 h50
    omega
  rcases Nat.eq_zero_or_pos d with hd0 | hdpos
  · subst hd0
    rw [interp49BitFloat_def]
    have hz1 : (rnPair 0 (2 ^ 49)).1 = 0 := by rw [rnPair_zero]
    have hz3 := rnMul_zero_fst (2 ^ 49) (rnPair M 1)
    rw [if_neg (by omega)]
    rw [if_neg (by omega)]
    rw [if_neg (by omega)]
  · have hq1e : (rnPair d (2 ^ 49)).2 ≤ -52 := by
      have hlt1 : (d : ℚ) / ((2 ^ 49 : Nat) : ℚ) < 2 ^ (-1 + 1 : Int) := by
        rw [div_lt_iff₀ hTq]
        have hdq : (d : ℚ) < ((2 ^ 49 : Nat) : ℚ) := by exact_mod_cast hd
        norm_num
        linarith
      have := rnPair_snd_lt d (2 ^ 49) hdpos hT (-1) hlt1
      omega
    have hx := rnPair_fst d (2 ^ 49) hdpos hT
    have hy := rnPair_fst M 1 hM1 (by norm_num)
    have hPpos : 0 < (rnPair d (2 ^ 49)).1 * (rnPair M 1).1 := by
      have := hx.1
      have := hy.1
      positivity
    have hPlt : (rnPair d (2 ^ 49)).1 * (rnPair M 1).1 < 2 ^ 106 := by
      calc (rnPair d (2 ^ 49)).1 * (rnPair M 1).1 < 2 ^ 53 * 2 ^ 53 :=
            Nat.mul_lt_mul_of_lt_of_lt hx.2 hy.2
        _ = 2 ^ 106 := by norm_num
    have hpe : (rnPair ((rnPair d (2 ^ 49)).1 * (rnPair M 1).1) 1).2 ≤ 54 := by
      have hlt2 : (((rnPair d (2 ^ 49)).1 * (rnPair M 1).1 : Nat) : ℚ) / 1 <
          2 ^ (105 + 1 : Int) := by
        rw [div_one]
        have : (((rnPair d (2 ^ 49)).1 * (rnPair M 1).1 : Nat) : ℚ) <
            ((2 ^ 106 : Nat) : ℚ) := by exact_mod_cast hPlt
        have h106 : ((2 ^ 106 : Nat) : ℚ) = 2 ^ (105 + 1 : Int) := by norm_num
        linarith [this, le_of_eq h106]
      have := rnPair_snd_lt _ 1 hPpos (by norm_num) 105 hlt2
      omega
    rw [interp49BitFloat_def]
    rw [if_neg (by omega)]
    rw [if_neg (by omega)]
    rw [if_neg (by
      rw [rnMul]
      simp only
      omega)]

theorem rnPair_nat_exact (n : Nat) (hn : n < 2 ^ 53) :
    pairVal (rnPair n 1) = (n : ℚ) := by
  rcases Nat.eq_zero_or_pos n with h0 | hpos
  · rw [h0, rnPair_zero_pairVal]
    norm_num
  · have h : pairVal (rnPair n 1) = (n : ℚ) / ((1 : Nat) : ℚ) :=
      rnPair_exact n 1 n 0 hpos Nat.one_pos (by norm_num) hn
    rw [h]
    norm_num

set_option maxHeartbeats 2000000 in
theorem interp49Float_val_bounds (d M : Nat) (hd : d < 2 ^ 49) (hM1 : 0 < M)
    (hM2 : M ≤ 2 ^ 49) (hdpos : 0 < d) :
    ((d * M / 2 ^ 49 : Nat) : ℚ) ≤
        pairVal (rnMul (rnPair d (2 ^ 49)) (rnPair M 1)) ∧
      pairVal (rnMul (rnPair d (2 ^ 49)) (rnPair M 1)) ≤
        ((d * M : Nat) : ℚ) / ((2 ^ 49 : Nat) : ℚ) +
          (((d * M : Nat) : ℚ) / ((2 ^ 49 : Nat) : ℚ)) / 2 ^ 53 := by
  have hT : (0 : Nat) < 2 ^ 49 := by positivity
  have hTq : (0 : ℚ) < ((2 ^ 49 : Nat) : ℚ) := by exact_mod_cast hT
  have hx_exact : pairVal (rnPair d (2 ^ 49)) = (d : ℚ) / ((2 ^ 49 : Nat) : ℚ) := by
    apply rnPair_exact d (2 ^ 49) d (-49) hdpos hT ?_ (by omega)
    rw [show ((2 ^ 49 : Nat) : ℚ) = 2 ^ (49 : Int) by norm_num]
    rw [div_eq_mul_inv, ← zpow_neg]
  have hy_exact : pairVal (rnPair M 1) = (M : ℚ) := rnPair_nat_exact M (by omega)
  have hx := rnPair_fst d (2 ^ 49) hdpos hT
  have hy := rnPair_fst M 1 hM1 Nat.one_pos
  have hPpos : 0 < (rnPair d (2 ^ 49)).1 * (rnPair M 1).1 :=
    Nat.mul_pos (by omega) (by omega)
  have hu_eq : (((rnPair d (2 ^ 49)).1 * (rnPair M 1).1 : Nat) : ℚ) / 1 *
      2 ^ ((rnPair d (2 ^ 49)).2 + (rnPair M 1).2) =
      ((d * M : Nat) : ℚ) / ((2 ^ 49 : Nat) : ℚ) := by
    rw [pairVal_mul_pair, hx_exact, hy_exact]
    push_cast
    ring
  have happrox := rnPair_approx ((rnPair d (2 ^ 49)).1 * (rnPair M 1).1) 1
    hPpos Nat.one_pos
  have h2k := two_zpow_pos ((rnPair d (2 ^ 49)).2 + (rnPair M 1).2)
  have hpp : pairVal (rnMul (rnPair d (2 ^ 49)) (rnPair M 1)) =
      pairVal (rnPair ((rnPair d (2 ^ 49)).1 * (rnPair M 1).1) 1) *
        2 ^ ((rnPair d (2 ^ 49)).2 + (rnPair M 1).2) := pairVal_rnMul _ _
  have hone : (((1 : Nat)) : ℚ) = 1 := by norm_num
  constructor
  · rcases Nat.eq_zero_or_pos (d * M / 2 ^ 49) with hI0 | hIpos
    · rw [hI0, Nat.cast_zero]
      exact pairVal_nonneg (rnMul (rnPair d (2 ^ 49)) (rnPair M 1))
    · have hImlt : d * M / 2 ^ 49 < M := by
        rw [Nat.div_lt_iff_lt_mul hT]
        calc d * M < 2 ^ 49 * M := (Nat.mul_lt_mul_right hM1).mpr hd
          _ = M * 2 ^ 49 := Nat.mul_comm _ _
      have hIle : ((d * M / 2 ^ 49 : Nat) : ℚ) / ((1 : Nat) : ℚ) * 2 ^ (0 : Int) ≤
          (((rnPair d (2 ^ 49)).1 * (rnPair M 1).1 : Nat) : ℚ) / ((1 : Nat) : ℚ) *
            2 ^ ((rnPair d (2 ^ 49)).2 + (rnPair M 1).2) := by
        rw [hone, div_one, zpow_zero, mul_one, hu_eq]
        have hfl := int_floor_nat_div (d * M) (2 ^ 49)
        have hle := Int.floor_le (((d * M : Nat) : ℚ) / ((2 ^ 49 : Nat) : ℚ))
        rw [hfl] at hle
        exact_mod_cast hle
      have hmono := rnPair_mono_shift (d * M / 2 ^ 49) 1
        ((rnPair d (2 ^ 49)).1 * (rnPair M 1).1) 1 0
        ((rnPair d (2 ^ 49)).2 + (rnPair M 1).2) Nat.one_pos Nat.one_pos hIle
      have hIexact : pairVal (rnPair (d * M / 2 ^ 49) 1) =
          ((d * M / 2 ^ 49 : Nat) : ℚ) := rnPair_nat_exact _ (by omega)
      rw [zpow_zero, mul_one, hIexact] at hmono
      rw [hpp]
      exact hmono
  · rw [hpp]
    have step : pairVal (rnPair ((rnPair d (2 ^ 49)).1 * (rnPair M 1).1) 1) *
        2 ^ ((rnPair d (2 ^ 49)).2 + (rnPair M 1).2) ≤
        ((((rnPair d (2 ^ 49)).1 * (rnPair M 1).1 : Nat) : ℚ) / ((1 : Nat) : ℚ) +
          ((((rnPair d (2 ^ 49)).1 * (rnPair M 1).1 : Nat) : ℚ) / ((1 : Nat) : ℚ)) / 2 ^ 53) *
          2 ^ ((rnPair d (2 ^ 49)).2 + (rnPair M 1).2) :=
      mul_le_mul_of_nonneg_right happrox.2 (le_of_lt h2k)
    have hcollect : ((((rnPair d (2 ^ 49)).1 * (rnPair M 1).1 : Nat) : ℚ) / ((1 : Nat) : ℚ) +
        ((((rnPair d (2 ^ 49)).1 * (rnPair M 1).1 : Nat) : ℚ) / ((1 : Nat) : ℚ)) / 2 ^ 53) *
        2 ^ ((rnPair d (2 ^ 49)).2 + (rnPair M 1).2) =
        ((d * M : Nat) : ℚ) / ((2 ^ 49 : Nat) : ℚ) +
          (((d * M : Nat) : ℚ) / ((2 ^ 49 : Nat) : ℚ)) / 2 ^ 53 := by
      rw [hone, div_one, ← hu_eq, div_one]
      ring
    linarith

/-- Embedding of `_interp_49_bit(x, y_sup)` on the binary string `x`. -/
def interp49Bit (x : List Char) (ySup : Nat) : Except PyErr Int :=
  (pyIntBase2 x).bind (fun d => interp49BitFloat d ySup)

/-- The bit-string construction of `_get_bin_str_from_image`, from the two
thresholded boolean vectors onward (the image decoding, resizing and
thresholding that produce `rows` and `cols` are PIL/numpy collaborators,
outside the embedded core):
`"0b" + "".join(str(int(r == c)) for r, c in it.product(rows, cols))`. -/
def getBinStr (rows cols : List Bool) : List Char :=
  '0' :: 'b' ::
    ((rows.flatMap fun r => cols.map fun c => r == c).map
      fun b => if b then '1' else '0')

/-- Value of a big-endian bit list (first bit most significant). -/
def bitsVal (l : List Bool) : Nat :=
  l.foldl (fun a b => 2 * a + (if b then 1 else 0)) 0

/-- Modelled from the spec: the Python floating-point runtime is not part
of the source; following the spec's words ("implementations must use a
numeric type with at least B² bits of mantissa precision"), a numeric
representation with `m` bits of mantissa precision distinguishes
`(2^e - 1)/2^e` from `1` exactly when `e ≤ m`. -/
def distinguishesFromOne (mantissaBits e : Nat) : Bool :=
  decide (e ≤ mantissaBits)

/-- The startup assertion of the source,
`assert (2**SR_BITS - 1) / 2**SR_BITS != 1`: the exponent it actually tests
is `SR_BITS`, so on a system with `m` mantissa bits it passes iff the
representation distinguishes `(2^SR_BITS - 1)/2^SR_BITS` from `1`. -/
def startupPrecisionCheck (mantissaBits : Nat) : Bool :=
  distinguishesFromOne mantissaBits SR_BITS

/-- The check the spec (and the source's own comment, "ensure system floating
point precision is at least 49 bits") calls for: distinguishing
`(2^(SR_BITS²) - 1)/2^(SR_BITS²)` from `1`. -/
def requiredPrecisionCheck (mantissaBits : Nat) : Bool :=
  distinguishesFromOne mantissaBits (SR_BITS ^ 2)

/-- Radix-256 key of a symbol, used to decide distinctness of `SP_500`
cheaply. -/
def symKey (s : String) : Nat :=
  s.data.foldl (fun a c => a * 256 + c.toNat) 0

/-- Keys of `SP_500` entries 0..125. -/
def spKeys1 : List Nat := [
  5066061, 4280147, 4276820, 1094861398, 4277070, 1096046153, 4277325,
  1094992453, 4277328, 4276560, 4277587, 4277836, 65, 4280388, 1095450957,
  4279371, 4279362, 4280901, 1095518030, 1095519301, 5000788, 4279372,
  306273273676, 1196379975, 19791, 1095588430, 1095582546, 4279620,
  4277573, 4276556, 4277584, 4282448, 4278599, 4279636, 4282187, 4279632,
  4276803, 4279621, 1095583566, 4280392, 4277321, 1095652179, 4280142,
  4280385, 1094799436, 1095582036, 1095783510, 1094928204, 1095648596,
  4278855, 4278618, 84, 4281423, 1094996811, 4282959, 4281922, 4281945,
  1096306510, 4344658, 1111575628, 4342083, 1111643977, 4342104, 4342872,
  5722690, 284848500290, 4342361, 4344143, 1413825352, 1112099138,
  4344907, 16971, 16961, 1112231495, 4347713, 4347984, 4346712, 4345177,
  1096173391, 16978, 4346447, 1111895618, 16967, 1128813143, 1128549971,
  4414034, 4411476, 4411458, 4411206, 4407624, 4935000, 4408140,
  1128354386, 1129598036, 4407636, 1128419141, 1128419909, 4408407, 17221,
  4410947, 4410960, 1128546649, 17222, 4411980, 1396918359, 1128813650,
  4413016, 4410695, 17218, 4409412, 17225, 1128877638, 1129595219,
  1129530191, 67, 4408903, 4410456, 4410693, 4410707, 19279, 1129599816,
  17228, 289059066689, 4410689, 4407623, 4411216]

/-- Keys of `SP_500` entries 126..251. -/
def spKeys2 : List Nat := [
  17732, 5461082, 4408647, 4411215, 1129337428, 4672599, 1129600577,
  1129531216, 1129272148, 1129599553, 4408137, 4412248, 4410697, 4413011,
  4474953, 4474962, 4477513, 4478529, 17477, 4473164, 1481785689, 4478542,
  1146635085, 1178684999, 4475986, 4474451, 4475219, 17479, 1145853010,
  68, 4477018, 4476758, 4476759, 4478021, 4478283, 17476, 4479043,
  4541774, 4543566, 1161970009, 4539212, 4540760, 17751, 17729, 4541526,
  5000281, 4541778, 1162760264, 4543570, 4542279, 1162887501, 4542804,
  4539992, 1162955096, 4542802, 4543315, 17740, 1163154265, 17735,
  1163285063, 17747, 4544579, 1163415621, 1163415620, 4544594, 5787469,
  1179011414, 4605011, 1179206479, 1178686292, 4608596, 4605016,
  1179210818, 1179864146, 17989, 4606291, 17993, 4607060, 4607299, 70,
  1179930196, 4609110, 1179605057, 4607832, 4343118, 4604760, 1196576078,
  18772, 1195722819, 4670798, 1196315203, 18244, 18245, 4671827, 18253,
  4673603, 1195985988, 18252, 4673614, 18259, 4735308, 4737351, 4735315,
  4735809, 1346715979, 1213417795, 4739929, 4736339, 4739141, 4738132,
  1213156440, 18500, 4738894, 4739660, 4739924, 4740941, 4739153, 4740429,
  1212301646, 4737353, 4801101, 4801880, 1229215832, 4805719, 1229737294,
  1229865817]

/-- Keys of `SP_500` entries 252..377. -/
def spKeys3 : List Nat := [
  18770, 1347372100, 1229870147, 4801349, 4802118, 18768, 4804679,
  1229870165, 1230197319, 4806234, 1229870664, 4804950, 4805197,
  1245857876, 1246447705, 74, 4869706, 4866889, 4870221, 1246646354, 75,
  4932688, 4932953, 1262836051, 4934978, 4933965, 4934985, 1263288643,
  4933699, 19282, 4999256, 19528, 1280459608, 19543, 5002835, 1279545171,
  4998478, 5000771, 4999502, 5003606, 5000017, 5000532, 76, 5001047,
  5003586, 5067842, 5067343, 5066819, 1296782424, 5062994, 5066051,
  5065805, 5062995, 19777, 1297367880, 5065539, 5063492, 5063499, 5063764,
  5067339, 1296389185, 5064020, 5067844, 5064525, 1296255056, 19797,
  1297303124, 5062977, 1297239617, 5064779, 5066568, 5521744, 1296321626,
  1297110866, 1296978772, 5063503, 19795, 5066579, 5067593, 1297302345,
  1313096017, 1314144592, 1313229912, 5134156, 5129549, 1314345793,
  5134163, 5129541, 5131077, 20041, 1313100622, 5133123, 1314148947,
  5132099, 1313033288, 5132871, 5133637, 1314276417, 5133906, 1314410569,
  1330793561, 5199961, 1329874508, 5197123, 20302, 5196613, 1330791244,
  5195598, 1330923859, 1346584914, 5262151, 1346457175, 1346458177, 20552,
  1346459992, 1346459971, 1348030540, 5262930, 5260624, 5260869, 5260103,
  20557, 5264216, 5262935, 5265476, 5262915]

/-- Keys of `SP_500` entries 378..502. -/
def spKeys4 : List Nat := [
  1347374924, 5263431, 5263436, 5260871, 20551, 5261138, 5262404, 5263957,
  5260615, 5264451, 5264193, 5261389, 1364350543, 5265234, 1363365709,
  4474712, 21068, 5392966, 5395544, 79, 5391687, 1380271950, 21062,
  5395271, 5393732, 1381389401, 5392457, 5394251, 5394252, 5394256,
  1380930388, 5391180, 1397770057, 4411981, 1396851011, 5459010, 5461080,
  5457221, 5460549, 5132119, 5458007, 5460039, 1398229843, 5458509,
  5459521, 1397048391, 21327, 5002582, 5461835, 1396856152, 5461076,
  1398033476, 5461061, 5462347, 5462342, 1397641299, 5462361, 1414354259,
  1414680407, 1414813519, 5525586, 1414678352, 5523284, 5522764, 5522521,
  5523032, 5522770, 1414745153, 5527630, 5527636, 5524815, 5524056,
  1414742863, 21588, 5522503, 5526102, 1414679874, 5523011, 5527884,
  5526350, 5591874, 5588050, 1431065665, 5590608, 5587276, 5591123,
  5591625, 5590600, 5589075, 5655631, 5657682, 1448235854, 1448235851,
  22106, 1448236120, 5654083, 1448366675, 1447641929, 86, 5655875,
  5718338, 5718593, 5721428, 5718596, 22349, 5718356, 5719363, 5719619,
  1464159308, 5722964, 5719107, 5722699, 22361, 5720146, 5721410, 5723223,
  4675415, 1465470542, 5784908, 5790028, 5854541, 1514295873, 5915208,
  1514753870, 5919827]

set_option maxRecDepth 100000 in
set_option maxHeartbeats 4000000 in
theorem spKeys_eq : SP_500.map symKey = spKeys1 ++ spKeys2 ++ spKeys3 ++ spKeys4 := by
  decide

set_option maxRecDepth 10000 in
set_option maxHeartbeats 2000000 in
theorem spKeys1_nodup : spKeys1.Nodup := by decide

set_option maxRecDepth 10000 in
set_option maxHeartbeats 2000000 in
theorem spKeys2_nodup : spKeys2.Nodup := by decide

set_option maxRecDepth 10000 in
set_option maxHeartbeats 2000000 in
theorem spKeys3_nodup : spKeys3.Nodup := by decide

set_option maxRecDepth 10000 in
set_option maxHeartbeats 2000000 in
theorem spKeys4_nodup : spKeys4.Nodup := by decide

set_option maxRecDepth 10000 in
set_option maxHeartbeats 2000000 in
theorem spKeys12 : ∀ a ∈ spKeys1, a ∉ spKeys2 := by decide

set_option maxRecDepth 10000 in
set_option maxHeartbeats 2000000 in
theorem spKeys13 : ∀ a ∈ spKeys1, a ∉ spKeys3 := by decide

set_option maxRecDepth 10000 in
set_option maxHeartbeats 2000000 in
theorem spKeys14 : ∀ a ∈ spKeys1, a ∉ spKeys4 := by decide

set_option maxRecDepth 10000 in
set_option maxHeartbeats 2000000 in
theorem spKeys23 : ∀ a ∈ spKeys2, a ∉ spKeys3 := by decide

set_option maxRecDepth 10000 in
set_option maxHeartbeats 2000000 in
theorem spKeys24 : ∀ a ∈ spKeys2, a ∉ spKeys4 := by decide

set_option maxRecDepth 10000 in
set_option maxHeartbeats 2000000 in
theorem spKeys34 : ∀ a ∈ spKeys3, a ∉ spKeys4 := by decide

theorem sp500_keys_nodup : (SP_500.map symKey).Nodup := by
  rw [spKeys_eq]
  have d12 := List.disjoint_left.mpr spKeys12
  have d13 := List.disjoint_left.mpr spKeys13
  have d14 := List.disjoint_left.mpr spKeys14
  have d23 := List.disjoint_left.mpr spKeys23
  have d24 := List.disjoint_left.mpr spKeys24
  have d34 := List.disjoint_left.mpr spKeys34
  simp only [List.nodup_append, List.disjoint_append_left]
  exact ⟨⟨⟨spKeys1_nodup, spKeys2_nodup, d12⟩, spKeys3_nodup, d13, d23⟩,
    spKeys4_nodup, ⟨d14, d24⟩, d34⟩

theorem sp500_nodup : SP_500.Nodup := List.Nodup.of_map symKey sp500_keys_nodup

set_option maxRecDepth 10000 in
theorem sp500_length : SP_500.length = 503 := by decide

/-! ## Value and bits of the digest string -/

theorem bitsVal_foldl : ∀ (l : List Bool) (a : Nat),
    l.foldl (fun a b => 2 * a + (if b then 1 else 0)) a =
      a * 2 ^ l.length + bitsVal l := by
  intro l
  induction l with
  | nil => intro a; simp [bitsVal]
  | cons b l ih =>
      intro a
      simp only [List.foldl_cons, List.length_cons, bitsVal] at ih ⊢
      rw [ih (2 * a + (if b then 1 else 0)), ih (2 * 0 + (if b then 1 else 0))]
      rw [pow_succ]
      ring

theorem bitsVal_cons (b : Bool) (l : List Bool) :
    bitsVal (b :: l) = (if b then 1 else 0) * 2 ^ l.length + bitsVal l := by
  have h := bitsVal_foldl l (2 * 0 + (if b then 1 else 0))
  simpa [bitsVal] using h

theorem bitsVal_lt : ∀ (l : List Bool), bitsVal l < 2 ^ l.length := by
  intro l
  induction l with
  | nil => simp [bitsVal]
  | cons b l ih =>
      rw [bitsVal_cons, List.length_cons, pow_succ]
      have h1 : (if b then 1 else 0) * 2 ^ l.length ≤ 2 ^ l.length := by
        cases b <;> simp
      omega

/-- Bit `p` (counting from the most significant bit, position `0`) of the
value of a bit list. -/
theorem bitsVal_testBit : ∀ (l : List Bool) (p : Nat) (b : Bool), l[p]? = some b →
    bitsVal l / 2 ^ (l.length - 1 - p) % 2 = (if b then 1 else 0) := by
  intro l
  induction l with
  | nil => intro p b h; simp at h
  | cons b0 l ih =>
      intro p b h
      cases p with
      | zero =>
          have hb : b0 = b := by simpa using h
          subst hb
          rw [bitsVal_cons]
          simp only [List.length_cons, Nat.add_sub_cancel, Nat.sub_zero]
          have hV := bitsVal_lt l
          cases b0 with
          | false => simp [Nat.div_eq_of_lt hV]
          | true =>
              simp only [if_true, one_mul]
              rw [Nat.add_comm, Nat.add_div_right _ (pow_pos (by norm_num) _),
                Nat.div_eq_of_lt hV]
      | succ p =>
          have h' : l[p]? = some b := by simpa using h
          have hp : p < l.length := (List.getElem?_eq_some.mp h').1
          rw [bitsVal_cons]
          simp only [List.length_cons]
          have hE : l.length + 1 - 1 - (p + 1) = l.length - 1 - p := by omega
          rw [hE]
          have hsplit : 2 ^ l.length = 2 ^ (l.length - 1 - p) * 2 ^ (p + 1) := by
            rw [← pow_add]
            congr 1
            omega
          rw [hsplit]
          have hrearr : (if b0 then 1 else 0) *
              (2 ^ (l.length - 1 - p) * 2 ^ (p + 1)) + bitsVal l =
              2 ^ (l.length - 1 - p) * ((if b0 then 1 else 0) * 2 ^ (p + 1)) +
                bitsVal l := by ring
          rw [hrearr, Nat.mul_add_div (pow_pos (by norm_num) _)]
          have h2 : (if b0 then 1 else 0) * 2 ^ (p + 1) =
              2 * ((if b0 then 1 else 0) * 2 ^ p) := by ring
          rw [h2, Nat.mul_add_mod]
          exact ih p b h'

/-- Length of the pair-product bit list. -/
theorem flatMap_const_length {α β : Type} (f : α → List β) (B : Nat)
    (hf : ∀ r, (f r).length = B) :
    ∀ (rows : List α), (rows.flatMap f).length = rows.length * B := by
  intro rows
  induction rows with
  | nil => simp
  | cons a rows ih =>
      simp only [List.flatMap_cons, List.length_append, ih, List.length_cons,
        hf a]
      ring

/-- Indexing the pair-product bit list at `i * B + j` selects row `i`,
column `j`. -/
theorem flatMap_const_getElem {α β : Type} (f : α → List β) (B : Nat)
    (hf : ∀ r, (f r).length = B) :
    ∀ (rows : List α) (i j : Nat) (r : α), rows[i]? = some r → j < B →
      (rows.flatMap f)[i * B + j]? = (f r)[j]? := by
  intro rows
  induction rows with
  | nil => intro i j r h; simp at h
  | cons a rows ih =>
      intro i j r h hj
      cases i with
      | zero =>
          have ha : a = r := by simpa using h
          subst ha
          simp only [Nat.zero_mul, Nat.zero_add, List.flatMap_cons]
          exact List.getElem?_append_left (by rw [hf a]; exact hj)
      | succ i =>
          have h' : rows[i]? = some r := by simpa using h
          simp only [List.flatMap_cons]
          rw [List.getElem?_append_right (by rw [hf a]; nlinarith)]
          rw [hf a]
          rw [show (i + 1) * B + j - B = i * B + j by rw [Nat.succ_mul]; omega]
          exact ih i j r h' hj

theorem foldl_bitChar : ∀ (bits : List Bool) (a : Nat),
    List.foldl (fun a c => 2 * a + if c == '1' then 1 else 0) a
      (bits.map fun b => if b then '1' else '0') =
    List.foldl (fun a b => 2 * a + (if b then 1 else 0)) a bits := by
  intro bits
  induction bits with
  | nil => intro a; rfl
  | cons b bits ih =>
      intro a
      cases b <;> simp only [List.map_cons, List.foldl_cons] <;> exact ih _

/-- Parsing the program's `"0b..."` string recovers the big-endian value of
the bit list. -/
theorem pyIntBase2_getBinStr (rows cols : List Bool) (hr : rows ≠ [])
    (hc : cols ≠ []) :
    pyIntBase2 (getBinStr rows cols) =
      .ok (bitsVal (rows.flatMap fun r => cols.map fun c => r == c)) := by
  set bits := rows.flatMap fun r => cols.map fun c => r == c with hbits
  have hne : bits ≠ [] := by
    cases rows with
    | nil => exact absurd rfl hr
    | cons r rows' =>
        cases cols with
        | nil => exact absurd rfl hc
        | cons c cols' => simp [hbits]
  rw [getBinStr, ← hbits, pyIntBase2]
  have h0 : List.take 2
      ('0' :: 'b' :: bits.map fun b => if b then '1' else '0') = ['0', 'b'] := rfl
  have h1 : List.drop 2
      ('0' :: 'b' :: bits.map fun b => if b then '1' else '0') =
      bits.map fun b => if b then '1' else '0' := rfl
  simp only [if_pos h0, h1]
  rw [if_neg (by simp [List.isEmpty_iff, hne]), if_pos (by
    rw [List.all_eq_true]
    intro x hx
    obtain ⟨b, _, rfl⟩ := List.mem_map.mp hx
    cases b <;> decide)]
  rw [foldl_bitChar]
  rfl

/-- The exact value of the interpolation: `d * M / 2^(SR_BITS²)` with natural
division. -/
theorem interp49BitNum_eq_natDiv (d M : Nat) :
    interp49BitNum d M = ((d * M / 2 ^ (SR_BITS ^ 2) : Nat) : Int) := by
  rw [interp49BitNum]
  have hq : (d : ℚ) / 2 ^ (SR_BITS ^ 2) * (M : ℚ) =
      ((d * M : Nat) : ℚ) / ((2 ^ (SR_BITS ^ 2) : Nat) : ℚ) := by
    push_cast
    ring
  rw [hq]
  rw [← Int.natCast_floor_eq_floor (by positivity)]
  rw [Nat.floor_div_nat, Nat.floor_natCast]

/-! ## The claims -/

/-- C1: for every `0 ≤ k ≤ n` and `0 ≤ idx < C(n,k)`, `_get_ith_comb(n, k, idx)`
returns exactly the `idx`-th element of the canonical lexicographic enumeration
of the k-combinations of `{0, ..., n-1}` listed as ascending tuples; the result
is a strictly increasing sequence of `k` distinct indices in `[0, n)`, and the
enumeration is strictly lexicographically sorted, duplicate-free, of length
`C(n,k)`, and contains exactly the ascending k-tuples over `[0, n)` (so
indexing it is a bijection from `[0, C(n,k))` onto the k-combinations). -/
theorem c1_unrank_is_lex_indexing (n k idx : Nat) (hk : k ≤ n)
    (hidx : idx < Nat.choose n k) :
    ∃ c : List Nat,
      (kcombs k (List.range n))[idx]? = some c ∧
      getIthComb n k idx = .ok (c.map (fun (v : Nat) => (v : Int))) ∧
      c.Pairwise (· < ·) ∧ c.length = k ∧ (∀ v ∈ c, v < n) ∧
      (kcombs k (List.range n)).length = Nat.choose n k ∧
      (kcombs k (List.range n)).Pairwise (List.Lex (· < ·)) ∧
      (kcombs k (List.range n)).Nodup ∧
      (∀ d ∈ kcombs k (List.range n),
        d.Pairwise (· < ·) ∧ d.length = k ∧ ∀ v ∈ d, v < n) ∧
      (∀ d : List Nat, d.Pairwise (· < ·) → d.length = k → (∀ v ∈ d, v < n) →
        d ∈ kcombs k (List.range n)) := by
  obtain ⟨c, hsome, hok⟩ := getIthComb_ok n k idx hk hidx
  have hmem : c ∈ kcombs k (List.range n) := by
    obtain ⟨h1, h2⟩ := List.getElem?_eq_some.mp hsome
    exact h2 ▸ List.getElem_mem h1
  obtain ⟨hcp, hclen, hcb⟩ := kcombs_range_facts n k hmem
  refine ⟨c, hsome, hok, hcp, hclen, hcb, ?_, ?_, ?_, ?_, ?_⟩
  · rw [length_kcombs, List.length_range]
  · exact kcombs_pairwise_lex k (List.pairwise_lt_range n)
  · exact kcombs_nodup k (List.pairwise_lt_range n)
  · intro d hd
    exact kcombs_range_facts n k hd
  · intro d hdp hdl hdb
    exact kcombs_range_complete n k d hdp hdl hdb

theorem c1_unrank_is_lex_indexing_witness :
    (2 ≤ 5 ∧ 4 < Nat.choose 5 2) ∧
    (∃ c : List Nat,
      (kcombs 2 (List.range 5))[4]? = some c ∧
      getIthComb 5 2 4 = .ok (c.map (fun (v : Nat) => (v : Int))) ∧
      c.Pairwise (· < ·) ∧ c.length = 2 ∧ (∀ v ∈ c, v < 5) ∧
      (kcombs 2 (List.range 5)).length = Nat.choose 5 2 ∧
      (kcombs 2 (List.range 5)).Pairwise (List.Lex (· < ·)) ∧
      (kcombs 2 (List.range 5)).Nodup ∧
      (∀ d ∈ kcombs 2 (List.range 5),
        d.Pairwise (· < ·) ∧ d.length = 2 ∧ ∀ v ∈ d, v < 5) ∧
      (∀ d : List Nat, d.Pairwise (· < ·) → d.length = 2 → (∀ v ∈ d, v < 5) →
        d ∈ kcombs 2 (List.range 5))) :=
  ⟨⟨by decide, by decide⟩, c1_unrank_is_lex_indexing 5 2 4 (by decide) (by decide)⟩

/-- C2 (code bug): the startup assertion
`assert (2**SR_BITS - 1) / 2**SR_BITS != 1` tests the exponent `SR_BITS = 7`,
not `SR_BITS² = 49` as the claim (and the source's own comment, "ensure system
floating point precision is at least 49 bits") requires: a numeric
representation with 24 mantissa bits (e.g. IEEE single precision) passes the
code's check but fails the required 49-bit check. -/
theorem c2_startup_assert_exponent :
    startupPrecisionCheck 24 = true ∧ requiredPrecisionCheck 24 = false ∧
    (∀ m : Nat, startupPrecisionCheck m = true ↔ SR_BITS ≤ m) ∧
    (∀ m : Nat, requiredPrecisionCheck m = true ↔ SR_BITS ^ 2 ≤ m) := by
  refine ⟨by decide, by decide, ?_, ?_⟩ <;>
    intro m <;>
    simp [startupPrecisionCheck, requiredPrecisionCheck, distinguishesFromOne]

theorem c2_startup_assert_exponent_witness :
    startupPrecisionCheck 24 = true ∧ requiredPrecisionCheck 24 = false :=
  ⟨c2_startup_assert_exponent.1, c2_startup_assert_exponent.2.1⟩

/-- C3, counterexample to the claim as stated: `_get_ith_comb(2, 1, -1)` does
not raise; it silently returns `[0]`. -/
theorem c3_claim_counterexample : getIthComb 2 1 (-1) = .ok [0] := by decide

/-- C3 (amended): `_get_ith_comb(n, k, C(n,k))` raises for `k ≥ 1` (and more
generally `idx ≥ C(n,k)` raises, which for `k > n ≥ 0` covers every
`idx ≥ 0`); negative `n` or `k` raise `ValueError`.  But negative `idx` does
NOT raise: for `1 ≤ k ≤ n` it silently returns `[0, ..., k-1]`, and for
`k = 0` every `idx` (negative or `≥ C(n,0) = 1`) returns `[]`. -/
theorem c3_amended_range_errors :
    (∀ n k idx : Nat, 1 ≤ k → Nat.choose n k ≤ idx →
        getIthComb n k idx = .error .stopIteration) ∧
    (∀ n k idx : Int, n < 0 ∨ k < 0 → getIthComb n k idx = .error .valueError) ∧
    (∀ n k : Nat, 1 ≤ k → k ≤ n →
        getIthComb n k (-1) =
          .ok ((List.range k).map (fun (v : Nat) => (v : Int)))) ∧
    (∀ (n : Nat) (idx : Int), getIthComb n 0 idx = .ok []) := by
  refine ⟨?_, ?_, ?_, ?_⟩
  · intro n k idx hk hidx
    exact getIthComb_ge n k idx hk hidx
  · intro n k idx h
    rw [getIthComb, if_pos h]
  · intro n k h1 hk
    exact getIthComb_nonpos n k (-1) hk (by norm_num)
  · intro n idx
    exact getIthComb_k_zero n idx

theorem c3_amended_range_errors_witness :
    getIthComb 3 2 3 = .error .stopIteration ∧
    getIthComb (-2) 1 0 = .error .valueError ∧
    getIthComb 5 3 (-1) = .ok [0, 1, 2] ∧
    getIthComb 6 0 (-5) = .ok [] := by
  obtain ⟨h1, h2, h3, h4⟩ := c3_amended_range_errors
  exact ⟨h1 3 2 3 (by decide) (by decide), h2 (-2) 1 0 (Or.inl (by decide)),
    (h3 5 3 (by decide) (by decide)).trans rfl, h4 6 (-5)⟩

/-- C5: `_get_ith_comb(n, k, 0)` returns `[0, ..., k-1]` and
`_get_ith_comb(n, k, C(n,k)-1)` returns `[n-k, ..., n-1]`; in particular
`k = 0` gives the empty list and `k = n` gives `[0, ..., n-1]`. -/
theorem c5_boundary_values (n k : Nat) (hk : k ≤ n) :
    getIthComb n k 0 = .ok ((List.range k).map (fun (v : Nat) => (v : Int))) ∧
    getIthComb n k ((Nat.choose n k : Int) - 1) =
      .ok ((List.range' (n - k) k).map (fun (v : Nat) => (v : Int))) :=
  ⟨getIthComb_nonpos n k 0 hk le_rfl, getIthComb_last n k hk⟩

theorem c5_boundary_values_witness :
    (2 ≤ 5 ∧ getIthComb 5 2 0 = .ok [0, 1] ∧
      getIthComb 5 2 ((Nat.choose 5 2 : Int) - 1) = .ok [3, 4]) ∧
    (getIthComb 3 3 0 = .ok [0, 1, 2] ∧
      getIthComb 4 0 ((Nat.choose 4 0 : Int) - 1) = .ok []) := by
  obtain ⟨ha1, ha2⟩ := c5_boundary_values 5 2 (by decide)
  obtain ⟨hb1, -⟩ := c5_boundary_values 3 3 (by decide)
  obtain ⟨-, hc2⟩ := c5_boundary_values 4 0 (by decide)
  exact ⟨⟨by decide, ha1.trans rfl, ha2.trans rfl⟩,
    ⟨hb1.trans rfl, hc2.trans rfl⟩⟩

/-- C9: with `k = 0` the selection loop runs zero times, so
`_get_ith_comb(n, 0, idx)` returns `[]` for every integer `idx` (negative or
`≥ C(n,0) = 1`) without raising. -/
theorem c9_k_zero_never_validates (n idx : Int) (hn : 0 ≤ n) :
    getIthComb n 0 idx = .ok [] := by
  obtain ⟨m, rfl⟩ : ∃ m : Nat, n = (m : Int) :=
    ⟨n.toNat, (Int.toNat_of_nonneg hn).symm⟩
  exact getIthComb_k_zero m idx

theorem c9_k_zero_never_validates_witness :
    (0 : Int) ≤ 7 ∧ getIthComb 7 0 (-3) = .ok [] ∧ getIthComb 7 0 5 = .ok [] :=
  ⟨by decide, c9_k_zero_never_validates 7 (-3) (by decide),
    c9_k_zero_never_validates 7 5 (by decide)⟩

/-- C10: for `1 ≤ k ≤ n`, `_get_ith_comb(n, k, -1)` does not raise: the
downward scan caps the complementary rank and returns `[0, 1, ..., k-1]`,
the same result as `idx = 0`. -/
theorem c10_neg_idx_silently_capped (n k : Nat) (h1 : 1 ≤ k) (hk : k ≤ n) :
    getIthComb n k (-1) =
      .ok ((List.range k).map (fun (v : Nat) => (v : Int))) :=
  getIthComb_nonpos n k (-1) hk (by norm_num)

theorem c10_neg_idx_silently_capped_witness :
    (1 ≤ 2 ∧ 2 ≤ 4) ∧ getIthComb 4 2 (-1) = .ok [0, 1] :=
  ⟨⟨by decide, by decide⟩,
    (c10_neg_idx_silently_capped 4 2 (by decide) (by decide)).trans rfl⟩

set_option maxRecDepth 100000 in
/-- C4, counterexample to the claim as stated: at the program's own
`M = C(503, 4) = 2635531375` and digest `d = 458483555968369`, the float
pipeline returns `2146456873`, while the claim's formula
`floor(d / 2^(SR_BITS²) * M)` in exact arithmetic gives `2146456872` —
the double rounding (division, then product) lands one above the exact
floor, so the "equals floor(...)" part of the claim is false of the
program. -/
theorem c4_claim_counterexample :
    interp49BitFloat 458483555968369 2635531375 = .ok 2146456873 ∧
    interp49BitNum 458483555968369 2635531375 = 2146456872 ∧
    (2146456873 : Int) ≠ 2146456872 := by
  refine ⟨by decide, ?_, by decide⟩
  rw [interp49BitNum_eq_natDiv]
  decide

/-- C4 (amended): for every digest `d < 2^(SR_BITS²)` and every
`0 < M ≤ 2^(SR_BITS²)` (true of the program's `M = C(503, 4)`),
`_interp_49_bit(d, M)` returns (without overflow) a rank `r` with
`⌊d / 2^(SR_BITS²) · M⌋ ≤ r ≤ ⌊d / 2^(SR_BITS²) · M⌋ + 1` — equality with
the exact floor can fail, see the counterexample — and `r` lies in
`[0, M)`; digest `0` maps to rank `0`, and the maximal digest
`2^(SR_BITS²) - 1` maps to rank `M - 1`. -/
theorem c4_interp_formula_amended (d M : Nat) (hd : d < 2 ^ (SR_BITS ^ 2))
    (hM1 : 0 < M) (hM2 : M ≤ 2 ^ (SR_BITS ^ 2)) :
    ∃ r : Int, interp49BitFloat d M = .ok r ∧
      interp49BitNum d M ≤ r ∧ r ≤ interp49BitNum d M + 1 ∧
      0 ≤ r ∧ r < (M : Int) ∧
      (d = 0 → r = 0) ∧
      (d = 2 ^ (SR_BITS ^ 2) - 1 → r = (M : Int) - 1) := by
  have hd' : d < 2 ^ 49 := hd
  have hM2' : M ≤ 2 ^ 49 := hM2
  have hT : (0 : Nat) < 2 ^ 49 := by positivity
  have hTq : (0 : ℚ) < ((2 ^ 49 : Nat) : ℚ) := by exact_mod_cast hT
  have hnum : interp49BitNum d M = ((d * M / 2 ^ 49 : Nat) : Int) :=
    interp49BitNum_eq_natDiv d M
  refine ⟨floorPair (rnMul (rnPair d (2 ^ 49)) (rnPair M 1)),
    interp49Float_guards d M hd' hM1 hM2', ?_⟩
  rcases Nat.eq_zero_or_pos d with hd0 | hdpos
  · subst hd0
    have hz3 := rnMul_zero_fst (2 ^ 49) (rnPair M 1)
    have hfz : floorPair (rnMul (rnPair 0 (2 ^ 49)) (rnPair M 1)) = 0 := by
      rw [floorPair_eq, pairVal, hz3]
      norm_num
    have hnum0 : interp49BitNum 0 M = 0 := by
      rw [interp49BitNum_eq_natDiv]
      norm_num
    refine ⟨?_, ?_, ?_, ?_, fun _ => hfz, ?_⟩
    · rw [hfz, hnum0]
    · rw [hfz, hnum0]
      norm_num
    · rw [hfz]
    · rw [hfz]
      exact_mod_cast hM1
    · intro hcon
      exfalso
      have : (0 : Nat) = 2 ^ 49 - 1 := hcon
      omega
  · obtain ⟨hlow, hupp⟩ := interp49Float_val_bounds d M hd' hM1 hM2' hdpos
    have hreq : floorPair (rnMul (rnPair d (2 ^ 49)) (rnPair M 1)) =
        ⌊pairVal (rnMul (rnPair d (2 ^ 49)) (rnPair M 1))⌋ := floorPair_eq _
    have hfl : ⌊((d * M : Nat) : ℚ) / ((2 ^ 49 : Nat) : ℚ)⌋ =
        ((d * M / 2 ^ 49 : Nat) : Int) := int_floor_nat_div (d * M) (2 ^ 49)
    have hu_lt : ((d * M : Nat) : ℚ) / ((2 ^ 49 : Nat) : ℚ) < (M : ℚ) := by
      rw [div_lt_iff₀ hTq]
      have hnat : d * M < M * 2 ^ 49 := by
        calc d * M < 2 ^ 49 * M := (Nat.mul_lt_mul_right hM1).mpr hd'
          _ = M * 2 ^ 49 := Nat.mul_comm _ _
      exact_mod_cast hnat
    have hu_nonneg : (0 : ℚ) ≤ ((d * M : Nat) : ℚ) / ((2 ^ 49 : Nat) : ℚ) := by
      positivity
    have hMq53 : (M : ℚ) ≤ 2 ^ 53 := by
      have h1 : (M : ℚ) ≤ ((2 ^ 49 : Nat) : ℚ) := by exact_mod_cast hM2'
      have h2 : ((2 ^ 49 : Nat) : ℚ) ≤ 2 ^ 53 := by norm_num
      linarith
    have herr_lt_one :
        (((d * M : Nat) : ℚ) / ((2 ^ 49 : Nat) : ℚ)) / 2 ^ 53 < 1 := by
      rw [div_lt_one (by positivity)]
      linarith
    have hr_lo : ((d * M / 2 ^ 49 : Nat) : Int) ≤
        floorPair (rnMul (rnPair d (2 ^ 49)) (rnPair M 1)) := by
      rw [hreq]
      exact Int.le_floor.mpr (by exact_mod_cast hlow)
    have hr_hi1 : floorPair (rnMul (rnPair d (2 ^ 49)) (rnPair M 1)) ≤
        ((d * M / 2 ^ 49 : Nat) : Int) + 1 := by
      rw [hreq]
      have hu_flo := Int.lt_floor_add_one
        (((d * M : Nat) : ℚ) / ((2 ^ 49 : Nat) : ℚ))
      rw [hfl] at hu_flo
      have hlt2 : pairVal (rnMul (rnPair d (2 ^ 49)) (rnPair M 1)) <
          ((((d * M / 2 ^ 49 : Nat) : Int) + 1 + 1 : Int) : ℚ) := by
        push_cast at hu_flo hupp herr_lt_one ⊢
        linarith
      have := Int.floor_lt.mpr hlt2
      omega
    have hr_nonneg : 0 ≤ floorPair (rnMul (rnPair d (2 ^ 49)) (rnPair M 1)) := by
      rw [hreq]
      exact Int.le_floor.mpr
        (by exact_mod_cast pairVal_nonneg (rnMul (rnPair d (2 ^ 49)) (rnPair M 1)))
    have hr_ltM : floorPair (rnMul (rnPair d (2 ^ 49)) (rnPair M 1)) < (M : Int) := by
      rw [hreq]
      apply Int.floor_lt.mpr
      have hu_le : ((d * M : Nat) : ℚ) / ((2 ^ 49 : Nat) : ℚ) ≤
          (M : ℚ) - (M : ℚ) / ((2 ^ 49 : Nat) : ℚ) := by
        rw [div_le_iff₀ hTq, sub_mul, div_mul_cancel₀ _ hTq.ne']
        have hnat : d * M + M ≤ M * 2 ^ 49 := by
          have hstep : (d + 1) * M ≤ 2 ^ 49 * M :=
            Nat.mul_le_mul_right M (by omega)
          calc d * M + M = (d + 1) * M := by ring
            _ ≤ 2 ^ 49 * M := hstep
            _ = M * 2 ^ 49 := Nat.mul_comm _ _
        have hq : ((d * M + M : Nat) : ℚ) ≤ ((M * 2 ^ 49 : Nat) : ℚ) := by
          exact_mod_cast hnat
        push_cast at hq ⊢
        linarith
      have hM49 : (M : ℚ) / 2 ^ 53 < (M : ℚ) / ((2 ^ 49 : Nat) : ℚ) := by
        rw [div_lt_div_iff₀ (by positivity) hTq]
        have hMpos : (0 : ℚ) < (M : ℚ) := by exact_mod_cast hM1
        have h4953 : ((2 ^ 49 : Nat) : ℚ) < 2 ^ 53 := by norm_num
        nlinarith
      have hu53 : (((d * M : Nat) : ℚ) / ((2 ^ 49 : Nat) : ℚ)) / 2 ^ 53 ≤
          (M : ℚ) / 2 ^ 53 :=
        (div_le_div_right (by positivity : (0 : ℚ) < 2 ^ 53)).mpr
          (le_of_lt hu_lt)
      push_cast
      linarith
    refine ⟨?_, ?_, hr_nonneg, hr_ltM, ?_, ?_⟩
    · rw [hnum]
      exact hr_lo
    · rw [hnum]
      exact hr_hi1
    · intro hcon
      exfalso
      omega
    · intro hdt
      have hdt' : d = 2 ^ 49 - 1 := hdt
      have hIeq : d * M / 2 ^ 49 = M - 1 := by
        rw [hdt']
        apply Nat.div_eq_of_lt_le
        · have e1 : (M - 1) * 2 ^ 49 = M * 2 ^ 49 - 2 ^ 49 := by
            rw [Nat.sub_mul, one_mul]
          have e2 : (2 ^ 49 - 1) * M = 2 ^ 49 * M - M := by
            rw [Nat.sub_mul, one_mul]
          have e3 : M * 2 ^ 49 = 2 ^ 49 * M := Nat.mul_comm _ _
          have e4 : M ≤ 2 ^ 49 * M := Nat.le_mul_of_pos_left _ hT
          omega
        · have h5 : M - 1 + 1 = M := by omega
          rw [h5]
          have e2 : (2 ^ 49 - 1) * M = 2 ^ 49 * M - M := by
            rw [Nat.sub_mul, one_mul]
          have e3 : M * 2 ^ 49 = 2 ^ 49 * M := Nat.mul_comm _ _
          have e4 : M ≤ 2 ^ 49 * M := Nat.le_mul_of_pos_left _ hT
          omega
      rw [hIeq] at hr_lo
      omega

set_option maxRecDepth 100000 in
theorem c4_interp_formula_amended_witness :
    (3 < 2 ^ (SR_BITS ^ 2) ∧ 0 < 10 ∧ 10 ≤ 2 ^ (SR_BITS ^ 2)) ∧
    (∃ r : Int, interp49BitFloat 3 10 = .ok r ∧
      interp49BitNum 3 10 ≤ r ∧ r ≤ interp49BitNum 3 10 + 1 ∧
      0 ≤ r ∧ r < ((10 : Nat) : Int) ∧
      ((3 : Nat) = 0 → r = 0) ∧
      ((3 : Nat) = 2 ^ (SR_BITS ^ 2) - 1 → r = ((10 : Nat) : Int) - 1)) :=
  ⟨⟨by decide, by decide, by decide⟩,
    c4_interp_formula_amended 3 10 (by decide) (by decide) (by decide)⟩

/-- C6: the interpolation is monotone: whenever the float pipeline
returns ranks `r1`, `r2` for digests `d1 < d2` in the digest domain and
any `M > 0`, `r1 ≤ r2` — correct rounding is monotone at every stage. -/
theorem c6_interp_monotone (M d1 d2 : Nat) (r1 r2 : Int) (hM : 0 < M)
    (h12 : d1 < d2) (h2 : d2 < 2 ^ (SR_BITS ^ 2))
    (he1 : interp49BitFloat d1 M = .ok r1)
    (he2 : interp49BitFloat d2 M = .ok r2) : r1 ≤ r2 := by
  have hT : (0 : Nat) < 2 ^ 49 := by positivity
  have hTq : (0 : ℚ) < ((2 ^ 49 : Nat) : ℚ) := by exact_mod_cast hT
  have hr1 : r1 = floorPair (rnMul (rnPair d1 (2 ^ 49)) (rnPair M 1)) := by
    rw [interp49BitFloat_def] at he1
    split_ifs at he1 <;>
      first
      | exact (Except.ok.inj he1).symm
      | exact absurd he1 (by simp)
  have hr2 : r2 = floorPair (rnMul (rnPair d2 (2 ^ 49)) (rnPair M 1)) := by
    rw [interp49BitFloat_def] at he2
    split_ifs at he2 <;>
      first
      | exact (Except.ok.inj he2).symm
      | exact absurd he2 (by simp)
  have hq1 : pairVal (rnPair d1 (2 ^ 49)) ≤ pairVal (rnPair d2 (2 ^ 49)) := by
    have hle : (d1 : ℚ) / ((2 ^ 49 : Nat) : ℚ) * 2 ^ (0 : Int) ≤
        (d2 : ℚ) / ((2 ^ 49 : Nat) : ℚ) * 2 ^ (0 : Int) := by
      rw [zpow_zero, mul_one, mul_one]
      have hc : (d1 : ℚ) ≤ (d2 : ℚ) := by exact_mod_cast le_of_lt h12
      exact (div_le_div_right hTq).mpr hc
    have := rnPair_mono_shift d1 (2 ^ 49) d2 (2 ^ 49) 0 0 hT hT hle
    rwa [zpow_zero, mul_one, mul_one] at this
  have hfM := pairVal_nonneg (rnPair M 1)
  have hprod : (((rnPair d1 (2 ^ 49)).1 * (rnPair M 1).1 : Nat) : ℚ) /
      ((1 : Nat) : ℚ) * 2 ^ ((rnPair d1 (2 ^ 49)).2 + (rnPair M 1).2) ≤
      (((rnPair d2 (2 ^ 49)).1 * (rnPair M 1).1 : Nat) : ℚ) /
        ((1 : Nat) : ℚ) * 2 ^ ((rnPair d2 (2 ^ 49)).2 + (rnPair M 1).2) := by
    have hone : (((1 : Nat)) : ℚ) = 1 := by norm_num
    rw [hone]
    rw [pairVal_mul_pair, pairVal_mul_pair]
    exact mul_le_mul_of_nonneg_right hq1 hfM
  have hval := rnPair_mono_shift ((rnPair d1 (2 ^ 49)).1 * (rnPair M 1).1) 1
    ((rnPair d2 (2 ^ 49)).1 * (rnPair M 1).1) 1
    ((rnPair d1 (2 ^ 49)).2 + (rnPair M 1).2)
    ((rnPair d2 (2 ^ 49)).2 + (rnPair M 1).2) Nat.one_pos Nat.one_pos hprod
  rw [← pairVal_rnMul, ← pairVal_rnMul] at hval
  rw [hr1, hr2, floorPair_eq, floorPair_eq]
  exact Int.floor_mono hval

set_option maxRecDepth 100000 in
theorem c6_interp_monotone_witness :
    (0 < 5 ∧ 1 < 2 ∧ 2 < 2 ^ (SR_BITS ^ 2) ∧
      interp49BitFloat 1 5 = .ok 0 ∧ interp49BitFloat 2 5 = .ok 0) ∧
    (0 : Int) ≤ 0 :=
  ⟨⟨by decide, by decide, by decide, by decide, by decide⟩,
    c6_interp_monotone 5 1 2 0 0 (by decide) (by decide) (by decide)
      (by decide) (by decide)⟩

/-- C7: from the two thresholded boolean vectors `r`, `c` of length
`SR_BITS`, the digest extractor builds a string of exactly `SR_BITS²` bits
with bit `(i, j) = 1` iff `r[i] == c[j]`, row-major (`i` outer, `j` inner),
first generated bit most significant, and parses it as an unsigned binary
integer; the digest is in `[0, 2^(SR_BITS²))`. -/
theorem c7_digest_bits (rows cols : List Bool) (hr : rows.length = SR_BITS)
    (hc : cols.length = SR_BITS) :
    ∃ d : Nat, pyIntBase2 (getBinStr rows cols) = .ok d ∧
      d < 2 ^ (SR_BITS ^ 2) ∧
      ∀ i j, i < SR_BITS → j < SR_BITS →
        ∃ ri cj : Bool, rows[i]? = some ri ∧ cols[j]? = some cj ∧
          d / 2 ^ (SR_BITS ^ 2 - 1 - (i * SR_BITS + j)) % 2 =
            (if ri == cj then 1 else 0) := by
  have hrne : rows ≠ [] := by
    intro h
    rw [h] at hr
    simp [SR_BITS] at hr
  have hcne : cols ≠ [] := by
    intro h
    rw [h] at hc
    simp [SR_BITS] at hc
  have hflen : ∀ r : Bool, ((cols.map fun c => r == c)).length = SR_BITS := by
    intro r
    simp [hc]
  have hblen : (rows.flatMap fun r => cols.map fun c => r == c).length =
      SR_BITS ^ 2 := by
    rw [flatMap_const_length _ SR_BITS hflen, hr, pow_two]
  refine ⟨bitsVal (rows.flatMap fun r => cols.map fun c => r == c),
    pyIntBase2_getBinStr rows cols hrne hcne, ?_, ?_⟩
  · have h := bitsVal_lt (rows.flatMap fun r => cols.map fun c => r == c)
    rwa [hblen] at h
  · intro i j hi hj
    have hi' : i < rows.length := by omega
    have hj' : j < cols.length := by omega
    refine ⟨rows.get ⟨i, hi'⟩, cols.get ⟨j, hj'⟩,
      List.getElem?_eq_getElem hi', List.getElem?_eq_getElem hj', ?_⟩
    have hbit : (rows.flatMap fun r => cols.map fun c => r == c)[i * SR_BITS + j]? =
        some (rows.get ⟨i, hi'⟩ == cols.get ⟨j, hj'⟩) := by
      rw [flatMap_const_getElem _ SR_BITS hflen rows i j _
        (List.getElem?_eq_getElem hi') hj]
      rw [List.getElem?_map, List.getElem?_eq_getElem hj']
      rfl
    have h := bitsVal_testBit _ _ _ hbit
    rwa [hblen] at h

theorem c7_digest_bits_witness :
    ([true, false, true, false, true, false, true].length = SR_BITS ∧
      [false, false, true, true, false, true, false].length = SR_BITS) ∧
    ∃ d : Nat,
      pyIntBase2 (getBinStr [true, false, true, false, true, false, true]
        [false, false, true, true, false, true, false]) = .ok d ∧
      d < 2 ^ (SR_BITS ^ 2) := by
  refine ⟨⟨by decide, by decide⟩, ?_⟩
  obtain ⟨d, h1, h2, -⟩ := c7_digest_bits
    [true, false, true, false, true, false, true]
    [false, false, true, true, false, true, false] (by decide) (by decide)
  exact ⟨d, h1, h2⟩

/-- Python indexing with a natural index in range returns the element. -/
theorem pyListIndex_nat (l : List String) (v : Nat) (hv : v < l.length) :
    pyListIndex l (v : Int) = .ok (l.getD v "") := by
  rw [pyListIndex]
  have h0 : ¬ ((v : Int) < 0) := by omega
  simp only [if_neg h0]
  rw [dif_pos ⟨by omega, by exact_mod_cast hv⟩]
  rw [List.getD_eq_getElem l "" hv]
  rfl

/-- Mapping `pyListIndex` over in-range indices succeeds and indexes
directly. -/
theorem mapM_pyListIndex (l : List String) :
    ∀ (c : List Nat), (∀ v ∈ c, v < l.length) →
      (c.map (fun (v : Nat) => (v : Int))).mapM (pyListIndex l) =
        .ok (c.map (fun v => l.getD v "")) := by
  intro c
  induction c with
  | nil => intro _; rfl
  | cons v c ih =>
      intro hb
      simp only [List.map_cons, List.mapM_cons]
      rw [pyListIndex_nat l v (hb v (by simp))]
      rw [ih (fun w hw => hb w (by simp [hw]))]
      rfl

/-- Distinct in-range indices into a duplicate-free list give distinct
elements. -/
theorem nodup_map_getD (l : List String) (hl : l.Nodup) :
    ∀ (c : List Nat), c.Pairwise (· < ·) → (∀ v ∈ c, v < l.length) →
      (c.map (fun v => l.getD v "")).Nodup := by
  intro c
  induction c with
  | nil => intro _ _; simp
  | cons v c ih =>
      intro hp hb
      simp only [List.map_cons, List.nodup_cons]
      constructor
      · intro hmem
        obtain ⟨w, hw, heq⟩ := List.mem_map.mp hmem
        have hvw : v < w := (List.pairwise_cons.mp hp).1 w hw
        have hvl : v < l.length := hb v (by simp)
        have hwl : w < l.length := hb w (by simp [hw])
        rw [List.getD_eq_getElem l "" hwl, List.getD_eq_getElem l "" hvl] at heq
        have heq' : l.get ⟨w, hwl⟩ = l.get ⟨v, hvl⟩ := heq
        have hfin := (List.Nodup.get_inj_iff hl).mp heq'
        have hwv : w = v := congrArg Fin.val hfin
        omega
      · exact ih (List.pairwise_cons.mp hp).2 (fun w hw => hb w (by simp [hw]))

/-- C8: for every `choice < C(N, K)` with `N = len(SP_500)` and
`K = N_PICKS = 4`, `_pick_sp500_symbols(choice)` returns exactly `K` labels,
each drawn from `SP_500`, with no duplicates, in the universe's canonical
order: `out[i] = SP_500[combo[i]]` for the strictly increasing `choice`-th
combination `combo`. -/
theorem c8_pick_symbols (choice : Nat)
    (hc : choice < Nat.choose SP_500.length N_PICKS) :
    ∃ (combo : List Nat) (out : List String),
      (kcombs N_PICKS (List.range SP_500.length))[choice]? = some combo ∧
      pickSp500Symbols choice = .ok out ∧
      out.length = N_PICKS ∧
      combo.Pairwise (· < ·) ∧ combo.length = N_PICKS ∧
      (∀ v ∈ combo, v < SP_500.length) ∧
      (∀ s ∈ out, s ∈ SP_500) ∧
      out.Nodup ∧
      (∀ (i : Nat) (v : Nat), combo[i]? = some v → out[i]? = SP_500[v]?) := by
  have hk4 : N_PICKS ≤ SP_500.length := by
    rw [sp500_length]
    norm_num [N_PICKS]
  obtain ⟨combo, hsome, hok⟩ := getIthComb_ok SP_500.length N_PICKS choice hk4 hc
  have hmem : combo ∈ kcombs N_PICKS (List.range SP_500.length) := by
    obtain ⟨h1, h2⟩ := List.getElem?_eq_some.mp hsome
    exact h2 ▸ List.getElem_mem h1
  obtain ⟨hcp, hclen, hcb⟩ := kcombs_range_facts SP_500.length N_PICKS hmem
  refine ⟨combo, combo.map (fun v => SP_500.getD v ""), hsome, ?_, ?_, hcp,
    hclen, hcb, ?_, ?_, ?_⟩
  · rw [pickSp500Symbols, hok]
    exact mapM_pyListIndex SP_500 combo hcb
  · simp [hclen]
  · intro s hs
    obtain ⟨w, hw, rfl⟩ := List.mem_map.mp hs
    rw [List.getD_eq_getElem SP_500 "" (hcb w hw)]
    exact List.getElem_mem _
  · exact nodup_map_getD SP_500 sp500_nodup combo hcp hcb
  · intro i v hv
    have hvc : v ∈ combo := by
      obtain ⟨h1, h2⟩ := List.getElem?_eq_some.mp hv
      exact h2 ▸ List.getElem_mem h1
    have hvl : v < SP_500.length := hcb v hvc
    rw [List.getElem?_map, hv]
    simp only [Option.map_some']
    rw [List.getElem?_eq_getElem hvl, List.getD_eq_getElem SP_500 "" hvl]

theorem c8_pick_symbols_witness :
    0 < Nat.choose SP_500.length N_PICKS ∧
    ∃ out : List String, pickSp500Symbols 0 = .ok out ∧
      out.length = N_PICKS ∧ out.Nodup := by
  have hpos : 0 < Nat.choose SP_500.length N_PICKS :=
    Nat.choose_pos (by rw [sp500_length]; norm_num [N_PICKS])
  refine ⟨hpos, ?_⟩
  obtain ⟨combo, out, -, hok, hlen, -, -, -, -, hnd, -⟩ :=
    c8_pick_symbols 0 hpos
  exact ⟨out, hok, hlen, hnd⟩
